import Mathlib

/-!
Verification development for the rewind event-scheduling library
(`history.c`, the current phase-aware revision: `rwn_history_*`).

The C library stores opaque events in a hash map from integer timepoints to
phase-sorted singly linked lists, hands out handles for removal, and replays
events over a timepoint range against caller-owned state, sequentially or
with bounded threads per phase.

Shallow embedding conventions:
- `uthash` hash maps keyed by `int` are modelled as association lists
  `List (Int × β)` in key-insertion order (uthash iterates in insertion
  order; `HASH_ADD` appends, `HASH_FIND` looks the key up, `HASH_DEL`
  removes the entry).
- `utlist` singly linked lists are Lean lists; `LL_APPEND` is `++ [x]`,
  `LL_DELETE` removes the first matching node, `LL_SORT` (a stable merge
  sort) is modelled by the extensionally equal stable insertion sort
  `ll_sort` below.
- `malloc` identity of event records is modelled by a `Nat` id drawn from a
  per-history counter `next_id`: distinct allocations have distinct ids.
- Caller callbacks: the apply behavior is an optional function
  `π → σ → σ` on abstract payloads `π` and state `σ`; the destroy
  behavior's only observable aspect here is whether it is present and when
  it is invoked, so it is stored as a `Bool` flag and its invocations are
  reported as a trace of `CallbackCall` values.
- `rwn_history_state_delta` returns an `int` and otherwise acts only by
  invoking caller callbacks and spawning/joining threads; we model it as
  returning the count together with the exact trace of engine actions
  (synchronous calls, thread dispatches, join-all barriers). The caller's
  `state` pointer (`Option σ`, `none` = NULL) is forwarded to callbacks
  and never examined by the engine's control flow, matching the source.
-/

namespace Rewind

variable {π σ : Type}

/-- struct EventListEntry: one scheduled event record. `user_event` is the
payload pointer (`none` = NULL), `user_event_apply_func` the optional apply
behavior, `user_event_destroy_func` records presence of the destroy
behavior, `phase` the phase tag. `id` models the record's allocation
identity. -/
structure EventListEntry (π σ : Type) where
  id : Nat
  user_event : Option π
  user_event_apply_func : Option (π → σ → σ)
  user_event_destroy_func : Bool
  phase : Int

/-- struct RwnEventHandle: locator of one scheduled record (timepoint key
plus the identity of the event list element it points at). -/
structure RwnEventHandle where
  timepoint : Int
  event_list_elem : Nat
deriving DecidableEq

/-- struct RwnHistory: timepoint hash map (association list in key-insertion
order) and the flat list of issued handles. `next_id` models the allocator
of record identities. -/
structure RwnHistory (π σ : Type) where
  timepoint_hash_map : List (Int × List (EventListEntry π σ))
  event_handle_list : List RwnEventHandle
  next_id : Nat

/-- HASH_FIND_INT on the timepoint map. -/
def hash_find_int (m : List (Int × β)) (t : Int) : Option β :=
  match m with
  | [] => none
  | p :: rest => if p.1 = t then some p.2 else hash_find_int rest t

/-- HASH_DEL: remove the entry with the given key (first occurrence). -/
def hash_del (m : List (Int × β)) (t : Int) : List (Int × β) :=
  match m with
  | [] => []
  | p :: rest => if p.1 = t then rest else p :: hash_del rest t

/-- In-place mutation of the bucket stored under an existing key. -/
def hash_update (m : List (Int × β)) (t : Int) (b : β) : List (Int × β) :=
  match m with
  | [] => []
  | p :: rest => if p.1 = t then (t, b) :: rest else p :: hash_update rest t b

/-- Insertion step of the stable sort: place `e` before the first element
whose phase is ≥ `e.phase` (so after all earlier elements of equal phase,
preserving insertion order among phase ties). -/
def ll_sort_insert (e : EventListEntry π σ) :
    List (EventListEntry π σ) → List (EventListEntry π σ)
  | [] => [e]
  | x :: xs => if e.phase ≤ x.phase then e :: x :: xs else x :: ll_sort_insert e xs

/-- LL_SORT with cmp_event_list_entries_by_phase: utlist's LL_SORT is a
stable merge sort ordering by `phase`; any stable sort computes the same
list, so we use the structurally recursive stable insertion sort. -/
def ll_sort : List (EventListEntry π σ) → List (EventListEntry π σ)
  | [] => []
  | x :: xs => ll_sort_insert x (ll_sort xs)

/-- rwn_history_create. -/
def rwn_history_create : RwnHistory π σ := ⟨[], [], 0⟩

/-- rwn_history_schedule: negative timepoint fails; otherwise fetch or
create (append) the bucket, append the new record, re-sort the bucket by
phase, register and return a fresh handle. -/
def rwn_history_schedule (h : RwnHistory π σ) (at_timepoint at_phase : Int)
    (evt : Option π) (evt_apply_func : Option (π → σ → σ))
    (evt_destroy_func : Bool) : Option RwnEventHandle × RwnHistory π σ :=
  if at_timepoint < 0 then (none, h)
  else
    let entry : EventListEntry π σ :=
      ⟨h.next_id, evt, evt_apply_func, evt_destroy_func, at_phase⟩
    let map2 :=
      match hash_find_int h.timepoint_hash_map at_timepoint with
      | none =>
          h.timepoint_hash_map ++ [(at_timepoint, ll_sort ([] ++ [entry]))]
      | some bucket =>
          hash_update h.timepoint_hash_map at_timepoint (ll_sort (bucket ++ [entry]))
    let handle : RwnEventHandle := ⟨at_timepoint, h.next_id⟩
    (some handle, ⟨map2, h.event_handle_list ++ [handle], h.next_id + 1⟩)

/-- rwn_history_count_events. -/
def rwn_history_count_events (h : RwnHistory π σ) (at_timepoint : Int) : Int :=
  if at_timepoint < 0 then 0
  else
    match hash_find_int h.timepoint_hash_map at_timepoint with
    | some l => (l.length : Int)
    | none => 0

/-- rwn_history_get_events: the sequence of payload references written to
the caller's buffer (the returned int is its length). -/
def rwn_history_get_events (h : RwnHistory π σ) (at_timepoint : Int) :
    List (Option π) :=
  if rwn_history_count_events h at_timepoint ≤ 0 then []
  else
    match hash_find_int h.timepoint_hash_map at_timepoint with
    | some l => l.map (fun e => e.user_event)
    | none => []

/-- LL_DELETE of the event list element with the given identity (first
matching node). -/
def ll_delete_entry (l : List (EventListEntry π σ)) (i : Nat) :
    List (EventListEntry π σ) :=
  match l with
  | [] => []
  | e :: rest => if e.id = i then rest else e :: ll_delete_entry rest i

/-- LL_DELETE of a handle from the handle registry (first matching node). -/
def ll_delete_handle (l : List RwnEventHandle) (eh : RwnEventHandle) :
    List RwnEventHandle :=
  match l with
  | [] => []
  | x :: rest => if x = eh then rest else x :: ll_delete_handle rest eh

/-- rwn_history_unschedule: remove the record the handle points at (running
its destroy behavior, not further observed here), evict the bucket if it
became empty, and drop the handle. The source asserts handle validity; the
model covers the assertion-passing executions. -/
def rwn_history_unschedule (h : RwnHistory π σ) (eh : RwnEventHandle) :
    RwnHistory π σ :=
  match hash_find_int h.timepoint_hash_map eh.timepoint with
  | none =>
      ⟨h.timepoint_hash_map, ll_delete_handle h.event_handle_list eh, h.next_id⟩
  | some bucket =>
      let bucket2 := ll_delete_entry bucket eh.event_list_elem
      let map2 :=
        if bucket2.length = 0 then hash_del h.timepoint_hash_map eh.timepoint
        else hash_update h.timepoint_hash_map eh.timepoint bucket2
      ⟨map2, ll_delete_handle h.event_handle_list eh, h.next_id⟩

/-- The range test of rwn_history_unschedule_all:
eh->timepoint >= start && eh->timepoint <= finish. -/
def handle_in_range (start finish : Int) (eh : RwnEventHandle) : Bool :=
  decide (start ≤ eh.timepoint ∧ eh.timepoint ≤ finish)

/-- LL_FOREACH_SAFE loop of rwn_history_unschedule_all: iterate the
snapshot of the handle list (the safe iterator caches the next pointer),
unscheduling and counting the handles in range. -/
def unschedule_all_go (h : RwnHistory π σ) (hs : List RwnEventHandle)
    (start finish : Int) : RwnHistory π σ × Int :=
  match hs with
  | [] => (h, 0)
  | eh :: rest =>
      if handle_in_range start finish eh then
        let r := unschedule_all_go (rwn_history_unschedule h eh) rest start finish
        (r.1, r.2 + 1)
      else unschedule_all_go h rest start finish

/-- rwn_history_unschedule_all. -/
def rwn_history_unschedule_all (h : RwnHistory π σ) (start_timepoint finish_timepoint : Int) :
    RwnHistory π σ × Int :=
  if start_timepoint < 0 ∨ finish_timepoint < 0 then (h, 0)
  else if finish_timepoint < start_timepoint then (h, 0)
  else unschedule_all_go h h.event_handle_list start_timepoint finish_timepoint

/-- One caller-callback invocation performed during teardown, identified by
the record it belongs to. -/
inductive CallbackCall where
  | applyCall (id : Nat)
  | destroyCall (id : Nat)
deriving DecidableEq

/-- Inner loop of rwn_history_destroy over one bucket: run the destroy
behavior of every record that has one. -/
def destroy_bucket_calls : List (EventListEntry π σ) → List CallbackCall
  | [] => []
  | e :: rest =>
      if e.user_event_destroy_func then
        CallbackCall.destroyCall e.id :: destroy_bucket_calls rest
      else destroy_bucket_calls rest

/-- rwn_history_destroy: HASH_ITER over the map (key-insertion order),
draining each bucket; the trace of caller-callback invocations it performs.
The apply behavior is never called by this code path, so only destroy
invocations can occur in the result. -/
def rwn_history_destroy (h : RwnHistory π σ) : List CallbackCall :=
  (h.timepoint_hash_map.map (fun p => destroy_bucket_calls p.2)).flatten

/-- The guard of both replay branches:
evtentry->user_event != NULL && evtentry->user_event_apply_func != NULL. -/
def event_runnable (e : EventListEntry π σ) : Bool :=
  e.user_event.isSome && e.user_event_apply_func.isSome

/-- One observable engine action of rwn_history_state_delta: a synchronous
apply-callback invocation (sequential branch), a pthread_create dispatching
the record's apply behavior (parallel branch), or a join of every in-flight
thread. Invocations carry the timepoint being replayed. -/
inductive ReplayAction (π σ : Type) where
  | applyCall (timepoint : Int) (e : EventListEntry π σ)
  | dispatchCall (timepoint : Int) (e : EventListEntry π σ)
  | drain

/-- Sequential branch over one bucket: invoke the apply behavior of each
record with non-NULL payload and apply function, in list order. -/
def seq_bucket_trace (t : Int) : List (EventListEntry π σ) → List (ReplayAction π σ)
  | [] => []
  | e :: rest =>
      if event_runnable e then
        ReplayAction.applyCall t e :: seq_bucket_trace t rest
      else seq_bucket_trace t rest

/-- Parallel branch loop over one bucket. `prev_phase` is set once from the
first list entry and never updated (as in the source); `inflight` is
LL_COUNT of the thread list. Before dispatching, if the thread count
reached max_threads or the record's phase differs from prev_phase, every
in-flight thread is joined. -/
def par_bucket_go (t max_threads prev_phase : Int) :
    List (EventListEntry π σ) → Int → List (ReplayAction π σ)
  | [], _ => []
  | e :: rest, inflight =>
      if event_runnable e then
        if max_threads ≤ inflight ∨ e.phase ≠ prev_phase then
          ReplayAction.drain :: ReplayAction.dispatchCall t e ::
            par_bucket_go t max_threads prev_phase rest 1
        else
          ReplayAction.dispatchCall t e ::
            par_bucket_go t max_threads prev_phase rest (inflight + 1)
      else par_bucket_go t max_threads prev_phase rest inflight

/-- Parallel branch over one bucket: run the loop starting from the first
entry's phase and an empty thread list, then join any remaining threads.
The caller guarantees the bucket is non-empty. -/
def par_bucket_trace (t max_threads : Int) (bucket : List (EventListEntry π σ)) :
    List (ReplayAction π σ) :=
  match bucket with
  | [] => [ReplayAction.drain]
  | first :: _ => par_bucket_go t max_threads first.phase bucket 0 ++ [ReplayAction.drain]

/-- Per-timepoint body of the replay loop: multithreaded when
max_threads > 0, otherwise sequential. -/
def state_delta_bucket_trace (t max_threads : Int)
    (bucket : List (EventListEntry π σ)) : List (ReplayAction π σ) :=
  if 0 < max_threads then par_bucket_trace t max_threads bucket
  else seq_bucket_trace t bucket

/-- The timepoints i = start, start+1, ..., finish visited by the loop
(requires start ≤ finish, which the guards establish). -/
def delta_timepoints (start finish : Int) : List Int :=
  (List.range ((finish - start).toNat + 1)).map (fun (k : Nat) => start + (k : Int))

/-- The actions the loop performs at one visited timepoint: nothing when
the map has no (or an empty) bucket there, otherwise the branch's actions
(mapentry != NULL && mapentry->event_list != NULL). -/
def state_delta_segment (h : RwnHistory π σ) (max_threads t : Int) :
    List (ReplayAction π σ) :=
  match hash_find_int h.timepoint_hash_map t with
  | some bucket =>
      if bucket.isEmpty then [] else state_delta_bucket_trace t max_threads bucket
  | none => []

/-- The full engine trace of rwn_history_state_delta over a validated
range: for each visited timepoint whose bucket exists and is non-empty,
the corresponding branch's actions. -/
def state_delta_trace (h : RwnHistory π σ) (start finish max_threads : Int) :
    List (ReplayAction π σ) :=
  (delta_timepoints start finish).flatMap (state_delta_segment h max_threads)

/-- Is this action an invocation of an apply behavior (counted by
evtcount)? -/
def replay_is_invocation : ReplayAction π σ → Bool
  | ReplayAction.applyCall _ _ => true
  | ReplayAction.dispatchCall _ _ => true
  | ReplayAction.drain => false

/-- The evtcount accumulated by rwn_history_state_delta: one per apply
invocation or thread dispatch. -/
def trace_evtcount (tr : List (ReplayAction π σ)) : Int :=
  ((tr.filter replay_is_invocation).length : Int)

/-- rwn_history_state_delta: guards, then the loop. Result: the returned
int together with the engine's action trace. The caller's state pointer is
forwarded to the apply callbacks but never examined by the engine, so
neither component depends on it. -/
def rwn_history_state_delta (h : RwnHistory π σ) (start_timepoint finish_timepoint : Int)
    (state : Option σ) (max_threads : Int) : Int × List (ReplayAction π σ) :=
  if start_timepoint < 0 ∨ finish_timepoint < 0 then (0, [])
  else if finish_timepoint < start_timepoint then (0, [])
  else
    let tr := state_delta_trace h start_timepoint finish_timepoint max_threads
    (trace_evtcount tr, tr)

/-- Effect of one apply invocation on the pointed-to state. -/
def apply_entry (e : EventListEntry π σ) (s : σ) : σ :=
  match e.user_event, e.user_event_apply_func with
  | some p, some f => f p s
  | _, _ => s

/-- Folding the synchronous invocations of a sequential trace over the
state. -/
def run_seq_trace : List (ReplayAction π σ) → σ → σ
  | [], s => s
  | ReplayAction.applyCall _ e :: tr, s => run_seq_trace tr (apply_entry e s)
  | ReplayAction.dispatchCall _ _ :: tr, s => run_seq_trace tr s
  | ReplayAction.drain :: tr, s => run_seq_trace tr s

/-- The pointee of a non-NULL state after a sequential
(max_threads = 0) call of rwn_history_state_delta: each apply behavior
runs synchronously in trace order against the same state. -/
def rwn_history_state_delta_seq_state (h : RwnHistory π σ)
    (start finish : Int) (s : σ) : σ :=
  run_seq_trace (rwn_history_state_delta h start finish (some s) 0).2 s

/-- The ids of the records whose apply behavior a trace invokes or
dispatches, in order. -/
def invocation_ids (tr : List (ReplayAction π σ)) : List Nat :=
  tr.filterMap (fun a =>
    match a with
    | ReplayAction.applyCall _ e => some e.id
    | ReplayAction.dispatchCall _ e => some e.id
    | ReplayAction.drain => none)

/-- The action invokes (synchronously or by dispatching a thread) the apply
behavior of record `e` while replaying timepoint `t`. -/
def is_invocation_of (a : ReplayAction π σ) (t : Int) (e : EventListEntry π σ) : Prop :=
  a = ReplayAction.applyCall t e ∨ a = ReplayAction.dispatchCall t e

/-! Concrete test payloads: integer payloads and integer state, with the
increment and multiply apply behaviors of the repository's test suite. -/

/-- test_event_incr_apply: s += amount. -/
def incr_apply : Int → Int → Int := fun p s => s + p

/-- test_event_mult_apply: s *= by. -/
def mult_apply : Int → Int → Int := fun p s => s * p

/-- The history of the ordering example: E1(phase 1, +1), E2(phase 0, ×1),
E3(phase 1, +2), E4(phase 0, ×2), scheduled at timepoint 0 in that
insertion order. The records get ids 0, 1, 2, 3 respectively. -/
def c1_history : RwnHistory Int Int :=
  (rwn_history_schedule
    (rwn_history_schedule
      (rwn_history_schedule
        (rwn_history_schedule rwn_history_create 0 1 (some 1) (some incr_apply) false).2
        0 0 (some 1) (some mult_apply) false).2
      0 1 (some 2) (some incr_apply) false).2
    0 0 (some 2) (some mult_apply) false).2

/-- A history with a single event (id 0) at timepoint 0 whose payload
reference is NULL but whose apply behavior is present. -/
def null_payload_history : RwnHistory Int Int :=
  (rwn_history_schedule rwn_history_create 0 0 (none : Option Int)
    (some incr_apply) false).2

/-- A history with a single ordinary event (id 0, payload 7, apply behavior
present) at timepoint 0. -/
def one_event_history : RwnHistory Int Int :=
  (rwn_history_schedule rwn_history_create 0 0 (some 7) (some incr_apply) false).2

/-- Ordered insertion of a freshly appended record: `e` goes after every
record of phase ≤ `e.phase` and before the rest. On a phase-sorted bucket
this is what the stable re-sort of `bucket ++ [e]` computes. -/
def ins_after (l : List (EventListEntry π σ)) (e : EventListEntry π σ) :
    List (EventListEntry π σ) :=
  match l with
  | [] => [e]
  | x :: xs => if x.phase ≤ e.phase then x :: ins_after xs e else e :: x :: xs

/-- The timepoint an action replays, if it is an invocation. -/
def replay_tag : ReplayAction π σ → Option Int
  | ReplayAction.applyCall t _ => some t
  | ReplayAction.dispatchCall t _ => some t
  | ReplayAction.drain => none

/-- Number of threads in flight after one engine action: a dispatch adds a
thread, a drain joins them all, a synchronous call leaves none behind. -/
def inflight_step (n : Int) : ReplayAction π σ → Int
  | ReplayAction.dispatchCall _ _ => n + 1
  | ReplayAction.drain => 0
  | ReplayAction.applyCall _ _ => n

/-- Number of threads in flight after a prefix of the engine trace. -/
def inflight_after (u : List (ReplayAction π σ)) : Int :=
  u.foldl inflight_step 0

/-- A history with a single event (id 0) carrying a destroy behavior and a
second event (id 1) without one, both at timepoint 0. -/
def destroy_flag_history : RwnHistory Int Int :=
  (rwn_history_schedule
    (rwn_history_schedule rwn_history_create 0 0 (some 7) none true).2
    0 0 (some 8) none false).2

/-! The invariants of reachable histories. -/

/-- The total order a bucket is kept in: phase ascending, phase ties in
insertion order (record ids grow with insertion, so the id order encodes
the insertion order). -/
def entry_lex_lt (a b : EventListEntry π σ) : Prop :=
  a.phase < b.phase ∨ (a.phase = b.phase ∧ a.id < b.id)

/-- All records stored in a timepoint map, bucket by bucket in map order. -/
def all_entries (m : List (Int × List (EventListEntry π σ))) :
    List (EventListEntry π σ) :=
  (m.map Prod.snd).flatten

/-- Structural invariants every history reachable through the API
satisfies. -/
structure HistoryInv (h : RwnHistory π σ) : Prop where
  keys_nonneg : ∀ p ∈ h.timepoint_hash_map, 0 ≤ p.1
  keys_nodup : (h.timepoint_hash_map.map Prod.fst).Nodup
  buckets_nonempty : ∀ p ∈ h.timepoint_hash_map, p.2 ≠ []
  buckets_sorted : ∀ p ∈ h.timepoint_hash_map, p.2.Pairwise entry_lex_lt
  ids_bound : ∀ e ∈ all_entries h.timepoint_hash_map, e.id < h.next_id
  ids_nodup : ((all_entries h.timepoint_hash_map).map (fun e => e.id)).Nodup
  handles_bound : ∀ eh ∈ h.event_handle_list, eh.event_list_elem < h.next_id
  handles_nodup : (h.event_handle_list.map (fun eh => eh.event_list_elem)).Nodup

/-- The histories reachable from rwn_history_create through the mutating
API calls (unschedule is invoked on a currently registered handle, as the
source's assertion demands). -/
inductive Reachable : RwnHistory π σ → Prop where
  | create : Reachable rwn_history_create
  | schedule {h : RwnHistory π σ} (t ph : Int) (evt : Option π)
      (af : Option (π → σ → σ)) (df : Bool) :
      Reachable h → Reachable (rwn_history_schedule h t ph evt af df).2
  | unschedule {h : RwnHistory π σ} {eh : RwnEventHandle} :
      Reachable h → eh ∈ h.event_handle_list →
      Reachable (rwn_history_unschedule h eh)
  | unschedule_all {h : RwnHistory π σ} (s f : Int) :
      Reachable h → Reachable (rwn_history_unschedule_all h s f).1

/-! Basic lemmas about the association-list model of the uthash map. -/

theorem hash_find_int_eq_none {m : List (Int × β)} {t : Int} :
    hash_find_int m t = none ↔ t ∉ m.map Prod.fst := by
  induction m with
  | nil => simp [hash_find_int]
  | cons p rest ih =>
    by_cases hp : p.1 = t
    · simp [hash_find_int, hp]
    · simp only [hash_find_int, hp, if_neg, not_false_iff, ih, List.map_cons,
        List.mem_cons]
      constructor
      · intro hn hor
        rcases hor with h1 | h2
        · exact hp h1.symm
        · exact hn h2
      · intro hn h2
        exact hn (Or.inr h2)

theorem mem_of_hash_find_int {m : List (Int × β)} {t : Int} {b : β}
    (h : hash_find_int m t = some b) : (t, b) ∈ m := by
  induction m with
  | nil => simp [hash_find_int] at h
  | cons p rest ih =>
    rcases p with ⟨a, c⟩
    by_cases hp : a = t
    · simp only [hash_find_int, hp, if_pos] at h
      rcases Option.some.inj h with rfl
      subst hp
      exact List.mem_cons_self _ _
    · have hp2 : ¬((a, c).1 = t) := hp
      simp only [hash_find_int, hp2, if_neg, not_false_iff] at h
      exact List.mem_cons_of_mem _ (ih h)

theorem hash_find_int_append {m1 m2 : List (Int × β)} {t : Int} :
    hash_find_int (m1 ++ m2) t =
      match hash_find_int m1 t with
      | some b => some b
      | none => hash_find_int m2 t := by
  induction m1 with
  | nil => simp [hash_find_int]
  | cons p rest ih =>
    by_cases hp : p.1 = t
    · simp [hash_find_int, hp]
    · simp [hash_find_int, hp, ih]

theorem hash_find_int_decomp {m : List (Int × β)} {t : Int} {b : β}
    (h : hash_find_int m t = some b) :
    ∃ m1 m2, m = m1 ++ (t, b) :: m2 ∧ hash_find_int m1 t = none := by
  induction m with
  | nil => simp [hash_find_int] at h
  | cons p rest ih =>
    by_cases hp : p.1 = t
    · refine ⟨[], rest, ?_, by simp [hash_find_int]⟩
      simp only [hash_find_int, hp, if_pos] at h
      cases p
      simp_all
    · simp only [hash_find_int, hp, if_neg, not_false_iff] at h
      obtain ⟨m1, m2, rfl, hm1⟩ := ih h
      exact ⟨p :: m1, m2, rfl, by simp [hash_find_int, hp, hm1]⟩

theorem hash_update_decomp {m1 m2 : List (Int × β)} {t : Int} {b c : β}
    (h1 : hash_find_int m1 t = none) :
    hash_update (m1 ++ (t, b) :: m2) t c = m1 ++ (t, c) :: m2 := by
  induction m1 with
  | nil => simp [hash_update]
  | cons p rest ih =>
    by_cases hp : p.1 = t
    · simp [hash_find_int, hp] at h1
    · simp only [hash_find_int, hp, if_neg, not_false_iff] at h1
      simp [hash_update, hp, ih h1]

theorem hash_del_decomp {m1 m2 : List (Int × β)} {t : Int} {b : β}
    (h1 : hash_find_int m1 t = none) :
    hash_del (m1 ++ (t, b) :: m2) t = m1 ++ m2 := by
  induction m1 with
  | nil => simp [hash_del]
  | cons p rest ih =>
    by_cases hp : p.1 = t
    · simp [hash_find_int, hp] at h1
    · simp only [hash_find_int, hp, if_neg, not_false_iff] at h1
      simp [hash_del, hp, ih h1]

theorem hash_find_hash_update_ne {m : List (Int × β)} {t u : Int} {b : β}
    (h : u ≠ t) : hash_find_int (hash_update m t b) u = hash_find_int m u := by
  induction m with
  | nil => simp [hash_update]
  | cons p rest ih =>
    by_cases hp : p.1 = t
    · have : ¬(t = u) := fun hh => h hh.symm
      simp [hash_update, hash_find_int, hp, this]
    · simp [hash_update, hash_find_int, hp, ih]

theorem hash_find_hash_del_ne {m : List (Int × β)} {t u : Int}
    (h : u ≠ t) : hash_find_int (hash_del m t) u = hash_find_int m u := by
  induction m with
  | nil => simp [hash_del]
  | cons p rest ih =>
    by_cases hp : p.1 = t
    · have htu : ¬(t = u) := fun hh => h hh.symm
      simp [hash_del, hash_find_int, hp, htu]
    · simp [hash_del, hash_find_int, hp, ih]

theorem hash_update_keys {m : List (Int × β)} {t : Int} {b : β} :
    (hash_update m t b).map Prod.fst = m.map Prod.fst := by
  induction m with
  | nil => simp [hash_update]
  | cons p rest ih =>
    by_cases hp : p.1 = t
    · simp [hash_update, hp]
    · simp [hash_update, hp, ih]

theorem hash_del_sublist {m : List (Int × β)} {t : Int} :
    List.Sublist (hash_del m t) m := by
  induction m with
  | nil => simp [hash_del]
  | cons p rest ih =>
    by_cases hp : p.1 = t
    · simpa [hash_del, hp] using List.sublist_cons_self p rest
    · simpa [hash_del, hp] using List.Sublist.cons₂ p ih

/-! Lemmas about the stable sort. -/

theorem ll_sort_insert_perm (e : EventListEntry π σ) (l : List (EventListEntry π σ)) :
    (ll_sort_insert e l).Perm (e :: l) := by
  induction l with
  | nil => simp [ll_sort_insert]
  | cons x xs ih =>
    by_cases hc : e.phase ≤ x.phase
    · simp [ll_sort_insert, hc]
    · simp only [ll_sort_insert, hc, if_neg, not_false_iff]
      exact (ih.cons x).trans (List.Perm.swap e x xs)

theorem ll_sort_perm (l : List (EventListEntry π σ)) : (ll_sort l).Perm l := by
  induction l with
  | nil => simp [ll_sort]
  | cons x xs ih =>
    exact (ll_sort_insert_perm x (ll_sort xs)).trans (ih.cons x)

theorem ins_after_perm (l : List (EventListEntry π σ)) (e : EventListEntry π σ) :
    (ins_after l e).Perm (l ++ [e]) := by
  induction l with
  | nil => simp [ins_after]
  | cons x xs ih =>
    by_cases hc : x.phase ≤ e.phase
    · simpa [ins_after, hc] using ih.cons x
    · simp only [ins_after, hc, if_neg, not_false_iff, List.cons_append]
      exact (List.Perm.swap x e xs).trans ((List.perm_append_singleton e xs).symm.cons x)

theorem mem_ins_after {l : List (EventListEntry π σ)} {e y : EventListEntry π σ} :
    y ∈ ins_after l e ↔ y ∈ l ∨ y = e := by
  rw [(ins_after_perm l e).mem_iff]
  simp

theorem ll_sort_append_singleton {l : List (EventListEntry π σ)}
    {e : EventListEntry π σ}
    (hl : l.Pairwise (fun a b => a.phase ≤ b.phase)) :
    ll_sort (l ++ [e]) = ins_after l e := by
  induction l with
  | nil => simp [ll_sort, ll_sort_insert, ins_after]
  | cons x xs ih =>
    have hxall : ∀ y ∈ xs, x.phase ≤ y.phase := fun y hy => List.rel_of_pairwise_cons hl hy
    have hxs : xs.Pairwise (fun a b => a.phase ≤ b.phase) := hl.of_cons
    have hstep : ll_sort ((x :: xs) ++ [e]) = ll_sort_insert x (ins_after xs e) := by
      show ll_sort_insert x (ll_sort (xs ++ [e])) = _
      rw [ih hxs]
    by_cases hc : x.phase ≤ e.phase
    · rw [hstep]
      have hhead : ll_sort_insert x (ins_after xs e) = x :: ins_after xs e := by
        cases xs with
        | nil => simp [ins_after, ll_sort_insert, hc]
        | cons z zs =>
          by_cases hz : z.phase ≤ e.phase
          · have hxz : x.phase ≤ z.phase := hxall z (by simp)
            simp [ins_after, hz, ll_sort_insert, hxz]
          · simp [ins_after, hz, ll_sort_insert, hc]
      rw [hhead]
      simp [ins_after, hc]
    · have hce : e.phase < x.phase := lt_of_not_ge hc
      have hxs_gt : ∀ y ∈ xs, ¬(y.phase ≤ e.phase) := fun y hy =>
        not_le_of_gt (lt_of_lt_of_le hce (hxall y hy))
      have hins : ins_after xs e = e :: xs := by
        cases xs with
        | nil => simp [ins_after]
        | cons z zs => simp [ins_after, hxs_gt z (by simp)]
      rw [hstep, hins]
      have hxe : ¬(x.phase ≤ e.phase) := hc
      have hfront : ll_sort_insert x xs = x :: xs := by
        cases xs with
        | nil => simp [ll_sort_insert]
        | cons z zs => simp [ll_sort_insert, hxall z (by simp)]
      simp [ll_sort_insert, hxe, hfront, ins_after, hc]

theorem ins_after_pairwise {l : List (EventListEntry π σ)} {e : EventListEntry π σ}
    (hl : l.Pairwise entry_lex_lt) (hid : ∀ x ∈ l, x.id < e.id) :
    (ins_after l e).Pairwise entry_lex_lt := by
  induction l with
  | nil => simp [ins_after]
  | cons x xs ih =>
    have hxall : ∀ y ∈ xs, entry_lex_lt x y := fun y hy => List.rel_of_pairwise_cons hl hy
    have hxs : xs.Pairwise entry_lex_lt := hl.of_cons
    by_cases hc : x.phase ≤ e.phase
    · simp only [ins_after, hc, if_pos]
      refine List.Pairwise.cons ?_ (ih hxs (fun y hy => hid y (by simp [hy])))
      intro y hy
      rcases mem_ins_after.mp hy with hyxs | rfl
      · exact hxall y hyxs
      · rcases lt_or_eq_of_le hc with hlt | heq
        · exact Or.inl hlt
        · exact Or.inr ⟨heq, hid x (by simp)⟩
    · have hce : e.phase < x.phase := lt_of_not_ge hc
      simp only [ins_after, hc, if_neg, not_false_iff]
      refine List.Pairwise.cons ?_ hl
      intro y hy
      rcases List.mem_cons.mp hy with rfl | hyxs
      · exact Or.inl hce
      · have := hxall y hyxs
        rcases this with hlt | ⟨heq, _⟩
        · exact Or.inl (lt_of_lt_of_le hce (le_of_lt hlt))
        · exact Or.inl (lt_of_lt_of_le hce (le_of_eq heq))

theorem pairwise_phase_le_of_lex {l : List (EventListEntry π σ)}
    (hl : l.Pairwise entry_lex_lt) : l.Pairwise (fun a b => a.phase ≤ b.phase) :=
  hl.imp (fun hab => by
    rcases hab with hlt | ⟨heq, _⟩
    · exact le_of_lt hlt
    · exact le_of_eq heq)

theorem ll_delete_entry_sublist (l : List (EventListEntry π σ)) (i : Nat) :
    List.Sublist (ll_delete_entry l i) l := by
  induction l with
  | nil => simp [ll_delete_entry]
  | cons e rest ih =>
    by_cases he : e.id = i
    · simpa [ll_delete_entry, he] using List.sublist_cons_self e rest
    · simpa [ll_delete_entry, he] using List.Sublist.cons₂ e ih

theorem ll_delete_handle_sublist (l : List RwnEventHandle) (eh : RwnEventHandle) :
    List.Sublist (ll_delete_handle l eh) l := by
  induction l with
  | nil => simp [ll_delete_handle]
  | cons x rest ih =>
    by_cases hx : x = eh
    · simpa [ll_delete_handle, hx] using List.sublist_cons_self x rest
    · simpa [ll_delete_handle, hx] using List.Sublist.cons₂ x ih

/-! The API calls preserve the invariants. -/

theorem all_entries_decomp {m1 m2 : List (Int × List (EventListEntry π σ))}
    {t : Int} {b : List (EventListEntry π σ)} :
    all_entries (m1 ++ (t, b) :: m2) = all_entries m1 ++ b ++ all_entries m2 := by
  simp [all_entries]

theorem schedule_result {h : RwnHistory π σ} {t : Int} (ht : ¬t < 0)
    (ph : Int) (evt : Option π) (af : Option (π → σ → σ)) (df : Bool) :
    rwn_history_schedule h t ph evt af df =
      (some ⟨t, h.next_id⟩,
        ⟨match hash_find_int h.timepoint_hash_map t with
          | none => h.timepoint_hash_map ++
              [(t, ll_sort ([] ++ [⟨h.next_id, evt, af, df, ph⟩]))]
          | some bucket => hash_update h.timepoint_hash_map t
              (ll_sort (bucket ++ [⟨h.next_id, evt, af, df, ph⟩])),
          h.event_handle_list ++ [⟨t, h.next_id⟩], h.next_id + 1⟩) := by
  simp [rwn_history_schedule, ht]

theorem schedule_map_perm {h : RwnHistory π σ} {t : Int} (ht : ¬t < 0)
    (ph : Int) (evt : Option π) (af : Option (π → σ → σ)) (df : Bool) :
    (all_entries (rwn_history_schedule h t ph evt af df).2.timepoint_hash_map).Perm
      (all_entries h.timepoint_hash_map ++ [⟨h.next_id, evt, af, df, ph⟩]) := by
  rw [schedule_result ht ph evt af df]
  cases hfind : hash_find_int h.timepoint_hash_map t with
  | none =>
    simp only [hfind, all_entries, List.map_append, List.flatten_append]
    refine List.Perm.append_left _ ?_
    simp [ll_sort, ll_sort_insert]
  | some bucket =>
    obtain ⟨m1, m2, hm, hm1⟩ := hash_find_int_decomp hfind
    simp only [hfind]
    rw [hm, hash_update_decomp hm1, all_entries_decomp, all_entries_decomp]
    simp only [List.append_assoc]
    refine List.Perm.append_left _ ?_
    refine ((ll_sort_perm _).append_right _).trans ?_
    rw [List.append_assoc]
    exact List.Perm.append_left _ List.perm_append_comm

theorem inv_schedule {h : RwnHistory π σ} (hInv : HistoryInv h)
    (t ph : Int) (evt : Option π) (af : Option (π → σ → σ)) (df : Bool) :
    HistoryInv (rwn_history_schedule h t ph evt af df).2 := by
  by_cases ht : t < 0
  · simpa [rwn_history_schedule, ht] using hInv
  · have hperm := schedule_map_perm (h := h) ht ph evt af df
    have hids_bound :
        ∀ e ∈ all_entries (rwn_history_schedule h t ph evt af df).2.timepoint_hash_map,
          e.id < h.next_id + 1 := by
      intro e he
      rcases List.mem_append.mp (hperm.mem_iff.mp he) with hold | hnew
      · exact Nat.lt_succ_of_lt (hInv.ids_bound e hold)
      · simp only [List.mem_singleton] at hnew
        subst hnew
        exact Nat.lt_succ_self _
    have hids_nodup :
        ((all_entries (rwn_history_schedule h t ph evt af df).2.timepoint_hash_map).map
          (fun e => e.id)).Nodup := by
      refine ((hperm.map (fun e => e.id)).nodup_iff).mpr ?_
      simp only [List.map_append, List.map_singleton]
      rw [List.nodup_append]
      refine ⟨hInv.ids_nodup, List.nodup_singleton _, ?_⟩
      intro a ha hb
      simp only [List.mem_singleton] at hb
      subst hb
      obtain ⟨e, he, heid⟩ := List.mem_map.mp ha
      exact absurd heid (Nat.ne_of_lt (hInv.ids_bound e he))
    have hhandles_bound :
        ∀ eh ∈ (rwn_history_schedule h t ph evt af df).2.event_handle_list,
          eh.event_list_elem < h.next_id + 1 := by
      rw [schedule_result ht ph evt af df]
      intro eh heh
      rcases List.mem_append.mp heh with hold | hnew
      · exact Nat.lt_succ_of_lt (hInv.handles_bound eh hold)
      · simp only [List.mem_singleton] at hnew
        subst hnew
        exact Nat.lt_succ_self _
    have hhandles_nodup :
        ((rwn_history_schedule h t ph evt af df).2.event_handle_list.map
          (fun eh => eh.event_list_elem)).Nodup := by
      rw [schedule_result ht ph evt af df]
      simp only [List.map_append, List.map_singleton]
      rw [List.nodup_append]
      refine ⟨hInv.handles_nodup, by simp, ?_⟩
      intro a ha hb
      simp only [List.map_cons, List.map_nil, List.mem_singleton] at hb
      subst hb
      obtain ⟨eh, heh, hehid⟩ := List.mem_map.mp ha
      exact absurd hehid (Nat.ne_of_lt (hInv.handles_bound eh heh))
    have hnext :
        (rwn_history_schedule h t ph evt af df).2.next_id = h.next_id + 1 := by
      rw [schedule_result ht ph evt af df]
    refine ⟨?_, ?_, ?_, ?_, ?_, ?_, ?_, ?_⟩
    · rw [schedule_result ht ph evt af df]
      cases hfind : hash_find_int h.timepoint_hash_map t with
      | none =>
        simp only [hfind]
        intro p hp
        rcases List.mem_append.mp hp with hold | hnew
        · exact hInv.keys_nonneg p hold
        · simp only [List.mem_singleton] at hnew
          subst hnew
          exact not_lt.mp ht
      | some bucket =>
        obtain ⟨m1, m2, hm, hm1⟩ := hash_find_int_decomp hfind
        simp only [hfind]
        rw [hm, hash_update_decomp hm1]
        intro p hp
        rcases List.mem_append.mp hp with h1 | h2
        · exact hInv.keys_nonneg p (by rw [hm]; exact List.mem_append_left _ h1)
        · rcases List.mem_cons.mp h2 with rfl | h3
          · exact not_lt.mp ht
          · refine hInv.keys_nonneg p ?_
            rw [hm]
            exact List.mem_append_right _ (List.mem_cons_of_mem _ h3)
    · rw [schedule_result ht ph evt af df]
      cases hfind : hash_find_int h.timepoint_hash_map t with
      | none =>
        have hkey : t ∉ h.timepoint_hash_map.map Prod.fst :=
          hash_find_int_eq_none.mp hfind
        simp only [hfind]
        rw [List.map_append, List.nodup_append]
        refine ⟨hInv.keys_nodup, by simp, ?_⟩
        intro a ha hb
        simp only [List.map_cons, List.map_nil, List.mem_singleton] at hb
        subst hb
        exact hkey ha
      | some bucket =>
        obtain ⟨m1, m2, hm, hm1⟩ := hash_find_int_decomp hfind
        simp only [hfind]
        rw [hm, hash_update_decomp hm1]
        have := hInv.keys_nodup
        rw [hm] at this
        simpa using this
    · rw [schedule_result ht ph evt af df]
      cases hfind : hash_find_int h.timepoint_hash_map t with
      | none =>
        simp only [hfind]
        intro p hp
        rcases List.mem_append.mp hp with hold | hnew
        · exact hInv.buckets_nonempty p hold
        · simp only [List.mem_singleton] at hnew
          subst hnew
          simp [ll_sort, ll_sort_insert]
      | some bucket =>
        obtain ⟨m1, m2, hm, hm1⟩ := hash_find_int_decomp hfind
        simp only [hfind]
        rw [hm, hash_update_decomp hm1]
        intro p hp
        rcases List.mem_append.mp hp with h1 | h2
        · exact hInv.buckets_nonempty p (by rw [hm]; exact List.mem_append_left _ h1)
        · rcases List.mem_cons.mp h2 with rfl | h3
          · show ll_sort (bucket ++
                [(⟨h.next_id, evt, af, df, ph⟩ : EventListEntry π σ)]) ≠ []
            have hlen := (ll_sort_perm (bucket ++
                [(⟨h.next_id, evt, af, df, ph⟩ : EventListEntry π σ)])).length_eq
            intro hnil
            rw [hnil] at hlen
            simp at hlen
          · refine hInv.buckets_nonempty p ?_
            rw [hm]
            exact List.mem_append_right _ (List.mem_cons_of_mem _ h3)
    · rw [schedule_result ht ph evt af df]
      cases hfind : hash_find_int h.timepoint_hash_map t with
      | none =>
        simp only [hfind]
        intro p hp
        rcases List.mem_append.mp hp with hold | hnew
        · exact hInv.buckets_sorted p hold
        · simp only [List.mem_singleton] at hnew
          subst hnew
          simp [ll_sort, ll_sort_insert]
      | some bucket =>
        obtain ⟨m1, m2, hm, hm1⟩ := hash_find_int_decomp hfind
        have hbmem : (t, bucket) ∈ h.timepoint_hash_map := by
          rw [hm]; simp
        have hbsorted : bucket.Pairwise entry_lex_lt :=
          hInv.buckets_sorted _ hbmem
        have hbids : ∀ x ∈ bucket, x.id < h.next_id := by
          intro x hx
          refine hInv.ids_bound x ?_
          rw [hm, all_entries_decomp]
          simp [hx]
        simp only [hfind]
        rw [hm, hash_update_decomp hm1]
        intro p hp
        rcases List.mem_append.mp hp with h1 | h2
        · exact hInv.buckets_sorted p (by rw [hm]; exact List.mem_append_left _ h1)
        · rcases List.mem_cons.mp h2 with rfl | h3
          · rw [ll_sort_append_singleton (pairwise_phase_le_of_lex hbsorted)]
            exact ins_after_pairwise hbsorted hbids
          · refine hInv.buckets_sorted p ?_
            rw [hm]
            exact List.mem_append_right _ (List.mem_cons_of_mem _ h3)
    · rw [hnext]
      exact hids_bound
    · exact hids_nodup
    · rw [hnext]
      exact hhandles_bound
    · exact hhandles_nodup

theorem hash_find_int_of_mem {m : List (Int × β)} (hnodup : (m.map Prod.fst).Nodup)
    {t : Int} {b : β} (hmem : (t, b) ∈ m) : hash_find_int m t = some b := by
  induction m with
  | nil => simp at hmem
  | cons p rest ih =>
    rw [List.map_cons, List.nodup_cons] at hnodup
    rcases List.mem_cons.mp hmem with rfl | h2
    · simp [hash_find_int]
    · by_cases hp : p.1 = t
      · exfalso
        refine hnodup.1 ?_
        rw [hp]
        exact List.mem_map.mpr ⟨(t, b), h2, rfl⟩
      · simp [hash_find_int, hp, ih hnodup.2 h2]

theorem inv_unschedule {h : RwnHistory π σ} (hInv : HistoryInv h)
    (eh : RwnEventHandle) : HistoryInv (rwn_history_unschedule h eh) := by
  have hhsub := ll_delete_handle_sublist h.event_handle_list eh
  cases hfind : hash_find_int h.timepoint_hash_map eh.timepoint with
  | none =>
    simp only [rwn_history_unschedule, hfind]
    exact ⟨hInv.keys_nonneg, hInv.keys_nodup, hInv.buckets_nonempty,
      hInv.buckets_sorted, hInv.ids_bound, hInv.ids_nodup,
      fun x hx => hInv.handles_bound x (hhsub.mem hx),
      hInv.handles_nodup.sublist (hhsub.map _)⟩
  | some bucket =>
    obtain ⟨m1, m2, hm, hm1⟩ := hash_find_int_decomp hfind
    have hbsub := ll_delete_entry_sublist bucket eh.event_list_elem
    have hall_sub :
        List.Sublist
          (all_entries (m1 ++ (eh.timepoint, ll_delete_entry bucket eh.event_list_elem) :: m2))
          (all_entries h.timepoint_hash_map) := by
      rw [hm, all_entries_decomp, all_entries_decomp]
      exact ((List.Sublist.refl _).append hbsub).append (List.Sublist.refl _)
    have hall_sub2 :
        List.Sublist (all_entries (m1 ++ m2)) (all_entries h.timepoint_hash_map) := by
      rw [hm, all_entries_decomp]
      simp only [all_entries, List.map_append, List.flatten_append]
      rw [List.append_assoc]
      exact (List.Sublist.refl _).append
        ((List.nil_sublist bucket).append (List.Sublist.refl _))
    by_cases hlen : (ll_delete_entry bucket eh.event_list_elem).length = 0
    · simp only [rwn_history_unschedule, hfind, hlen, if_pos]
      rw [hm, hash_del_decomp hm1]
      rw [hm] at hall_sub2
      refine ⟨?_, ?_, ?_, ?_, ?_, ?_, ?_, ?_⟩
      · intro p hp
        refine hInv.keys_nonneg p ?_
        rw [hm]
        rcases List.mem_append.mp hp with h1 | h2
        · exact List.mem_append_left _ h1
        · exact List.mem_append_right _ (List.mem_cons_of_mem _ h2)
      · have hsubk :
            List.Sublist ((m1 ++ m2).map Prod.fst)
              ((m1 ++ (eh.timepoint, bucket) :: m2).map Prod.fst) := by
          refine List.Sublist.map _ ?_
          exact (List.Sublist.refl _).append (List.sublist_cons_self _ _)
        have := hInv.keys_nodup
        rw [hm] at this
        exact this.sublist hsubk
      · intro p hp
        refine hInv.buckets_nonempty p ?_
        rw [hm]
        rcases List.mem_append.mp hp with h1 | h2
        · exact List.mem_append_left _ h1
        · exact List.mem_append_right _ (List.mem_cons_of_mem _ h2)
      · intro p hp
        refine hInv.buckets_sorted p ?_
        rw [hm]
        rcases List.mem_append.mp hp with h1 | h2
        · exact List.mem_append_left _ h1
        · exact List.mem_append_right _ (List.mem_cons_of_mem _ h2)
      · intro e he
        refine hInv.ids_bound e ?_
        rw [hm]
        exact hall_sub2.mem he
      · have := hInv.ids_nodup
        rw [hm] at this
        exact this.sublist (hall_sub2.map _)
      · exact fun x hx => hInv.handles_bound x (hhsub.mem hx)
      · exact hInv.handles_nodup.sublist (hhsub.map _)
    · simp only [rwn_history_unschedule, hfind, hlen, if_neg, not_false_iff]
      rw [hm, hash_update_decomp hm1]
      rw [hm] at hall_sub
      refine ⟨?_, ?_, ?_, ?_, ?_, ?_, ?_, ?_⟩
      · intro p hp
        rcases List.mem_append.mp hp with h1 | h2
        · exact hInv.keys_nonneg p (by rw [hm]; exact List.mem_append_left _ h1)
        · rcases List.mem_cons.mp h2 with rfl | h3
          · exact hInv.keys_nonneg (eh.timepoint, bucket)
              (by rw [hm]; exact List.mem_append_right _ (List.mem_cons_self _ _))
          · refine hInv.keys_nonneg p ?_
            rw [hm]
            exact List.mem_append_right _ (List.mem_cons_of_mem _ h3)
      · have := hInv.keys_nodup
        rw [hm] at this
        simpa using this
      · intro p hp
        rcases List.mem_append.mp hp with h1 | h2
        · exact hInv.buckets_nonempty p (by rw [hm]; exact List.mem_append_left _ h1)
        · rcases List.mem_cons.mp h2 with rfl | h3
          · show ll_delete_entry bucket eh.event_list_elem ≠ []
            intro hnil
            rw [hnil] at hlen
            simp at hlen
          · refine hInv.buckets_nonempty p ?_
            rw [hm]
            exact List.mem_append_right _ (List.mem_cons_of_mem _ h3)
      · intro p hp
        rcases List.mem_append.mp hp with h1 | h2
        · exact hInv.buckets_sorted p (by rw [hm]; exact List.mem_append_left _ h1)
        · rcases List.mem_cons.mp h2 with rfl | h3
          · have hbsorted : bucket.Pairwise entry_lex_lt :=
              hInv.buckets_sorted (eh.timepoint, bucket)
                (by rw [hm]; exact List.mem_append_right _ (List.mem_cons_self _ _))
            exact hbsorted.sublist hbsub
          · refine hInv.buckets_sorted p ?_
            rw [hm]
            exact List.mem_append_right _ (List.mem_cons_of_mem _ h3)
      · intro e he
        refine hInv.ids_bound e ?_
        rw [hm]
        exact hall_sub.mem he
      · have := hInv.ids_nodup
        rw [hm] at this
        exact this.sublist (hall_sub.map _)
      · exact fun x hx => hInv.handles_bound x (hhsub.mem hx)
      · exact hInv.handles_nodup.sublist (hhsub.map _)

theorem inv_unschedule_all_go {h : RwnHistory π σ} (hInv : HistoryInv h)
    (hs : List RwnEventHandle) (s f : Int) :
    HistoryInv (unschedule_all_go h hs s f).1 := by
  induction hs generalizing h with
  | nil => exact hInv
  | cons eh rest ih =>
    by_cases hc : handle_in_range s f eh
    · simp only [unschedule_all_go, hc, if_pos]
      exact ih (inv_unschedule hInv eh)
    · simp only [unschedule_all_go, hc, if_neg, not_false_iff, Bool.false_eq_true]
      exact ih hInv

theorem inv_unschedule_all {h : RwnHistory π σ} (hInv : HistoryInv h)
    (s f : Int) : HistoryInv (rwn_history_unschedule_all h s f).1 := by
  unfold rwn_history_unschedule_all
  by_cases h1 : s < 0 ∨ f < 0
  · simpa [h1] using hInv
  · by_cases h2 : f < s
    · simpa [h1, h2] using hInv
    · simpa [h1, h2] using inv_unschedule_all_go hInv h.event_handle_list s f

theorem inv_create : HistoryInv (rwn_history_create : RwnHistory π σ) := by
  refine ⟨?_, ?_, ?_, ?_, ?_, ?_, ?_, ?_⟩ <;>
    simp [rwn_history_create, all_entries]

theorem reachable_inv {h : RwnHistory π σ} (hr : Reachable h) : HistoryInv h := by
  induction hr with
  | create => exact inv_create
  | schedule t ph evt af df _ ih => exact inv_schedule ih t ph evt af df
  | unschedule _ _ ih => exact inv_unschedule ih _
  | unschedule_all s f _ ih => exact inv_unschedule_all ih s f

/-! Structure of the replay traces. -/

theorem mem_seq_bucket_trace {t : Int} {l : List (EventListEntry π σ)}
    {a : ReplayAction π σ} (ha : a ∈ seq_bucket_trace t l) :
    ∃ e ∈ l, a = ReplayAction.applyCall t e ∧ event_runnable e = true := by
  induction l with
  | nil => simp [seq_bucket_trace] at ha
  | cons e rest ih =>
    by_cases hr : event_runnable e
    · simp only [seq_bucket_trace, hr, if_true] at ha
      rcases List.mem_cons.mp ha with rfl | h2
      · exact ⟨e, by simp, rfl, hr⟩
      · obtain ⟨e2, he2, haeq, hr2⟩ := ih h2
        exact ⟨e2, by simp [he2], haeq, hr2⟩
    · simp only [seq_bucket_trace, hr, if_false, Bool.false_eq_true] at ha
      obtain ⟨e2, he2, haeq, hr2⟩ := ih ha
      exact ⟨e2, by simp [he2], haeq, hr2⟩

theorem seq_bucket_trace_complete {t : Int} {l : List (EventListEntry π σ)}
    {e : EventListEntry π σ} (he : e ∈ l) (hr : event_runnable e = true) :
    ReplayAction.applyCall t e ∈ seq_bucket_trace t l := by
  induction l with
  | nil => simp at he
  | cons x rest ih =>
    rcases List.mem_cons.mp he with rfl | h2
    · simp [seq_bucket_trace, hr]
    · by_cases hx : event_runnable x
      · simp only [seq_bucket_trace, hx, if_true]
        exact List.mem_cons_of_mem _ (ih h2)
      · simp only [seq_bucket_trace, hx, if_false, Bool.false_eq_true]
        exact ih h2

theorem mem_par_bucket_go {t mt p0 : Int} {l : List (EventListEntry π σ)} {n : Int}
    {a : ReplayAction π σ} (ha : a ∈ par_bucket_go t mt p0 l n) :
    a = ReplayAction.drain ∨
      ∃ e ∈ l, a = ReplayAction.dispatchCall t e ∧ event_runnable e = true := by
  induction l generalizing n with
  | nil => simp [par_bucket_go] at ha
  | cons e rest ih =>
    by_cases hr : event_runnable e
    · by_cases hd : mt ≤ n ∨ e.phase ≠ p0
      · simp only [par_bucket_go, hr, hd, if_true, if_pos] at ha
        rcases List.mem_cons.mp ha with rfl | ha2
        · exact Or.inl rfl
        rcases List.mem_cons.mp ha2 with rfl | ha3
        · exact Or.inr ⟨e, by simp, rfl, hr⟩
        · rcases ih ha3 with hdr | ⟨e2, he2, haeq, hr2⟩
          · exact Or.inl hdr
          · exact Or.inr ⟨e2, by simp [he2], haeq, hr2⟩
      · simp only [par_bucket_go, hr, hd, if_true, if_neg, not_false_iff] at ha
        rcases List.mem_cons.mp ha with rfl | ha2
        · exact Or.inr ⟨e, by simp, rfl, hr⟩
        · rcases ih ha2 with hdr | ⟨e2, he2, haeq, hr2⟩
          · exact Or.inl hdr
          · exact Or.inr ⟨e2, by simp [he2], haeq, hr2⟩
    · simp only [par_bucket_go, hr, if_false, Bool.false_eq_true] at ha
      rcases ih ha with hdr | ⟨e2, he2, haeq, hr2⟩
      · exact Or.inl hdr
      · exact Or.inr ⟨e2, by simp [he2], haeq, hr2⟩

theorem par_bucket_go_complete {t mt p0 : Int} {l : List (EventListEntry π σ)}
    {e : EventListEntry π σ} (he : e ∈ l) (hr : event_runnable e = true) :
    ∀ n : Int, ReplayAction.dispatchCall t e ∈ par_bucket_go t mt p0 l n := by
  induction l with
  | nil => simp at he
  | cons x rest ih =>
    intro n
    rcases List.mem_cons.mp he with rfl | h2
    · by_cases hd : mt ≤ n ∨ e.phase ≠ p0
      · simp [par_bucket_go, hr, hd]
      · simp [par_bucket_go, hr, hd]
    · by_cases hx : event_runnable x
      · by_cases hd : mt ≤ n ∨ x.phase ≠ p0
        · simp only [par_bucket_go, hx, hd, if_true, if_pos]
          exact List.mem_cons_of_mem _ (List.mem_cons_of_mem _ (ih h2 1))
        · simp only [par_bucket_go, hx, hd, if_true, if_neg, not_false_iff]
          exact List.mem_cons_of_mem _ (ih h2 (n + 1))
      · simp only [par_bucket_go, hx, if_false, Bool.false_eq_true]
        exact ih h2 n

theorem mem_bucket_trace {t mt : Int} {bucket : List (EventListEntry π σ)}
    {a : ReplayAction π σ} (ha : a ∈ state_delta_bucket_trace t mt bucket) :
    a = ReplayAction.drain ∨
      ∃ e ∈ bucket, is_invocation_of a t e ∧ event_runnable e = true := by
  by_cases hmt : 0 < mt
  · simp only [state_delta_bucket_trace, hmt, if_pos] at ha
    cases bucket with
    | nil =>
      simp only [par_bucket_trace] at ha
      rcases List.mem_singleton.mp ha with rfl
      exact Or.inl rfl
    | cons first rest =>
      simp only [par_bucket_trace] at ha
      rcases List.mem_append.mp ha with hgo | hdr
      · rcases mem_par_bucket_go hgo with hdr | ⟨e, he, haeq, hr⟩
        · exact Or.inl hdr
        · exact Or.inr ⟨e, he, Or.inr haeq, hr⟩
      · rcases List.mem_singleton.mp hdr with rfl
        exact Or.inl rfl
  · simp only [state_delta_bucket_trace, hmt, if_neg, not_false_iff] at ha
    obtain ⟨e, he, haeq, hr⟩ := mem_seq_bucket_trace ha
    exact Or.inr ⟨e, he, Or.inl haeq, hr⟩

theorem bucket_trace_complete {t m : Int} {bucket : List (EventListEntry π σ)}
    {e : EventListEntry π σ} (he : e ∈ bucket) (hr : event_runnable e = true) :
    ∃ a ∈ state_delta_bucket_trace t m bucket, is_invocation_of a t e := by
  by_cases hmt : 0 < m
  · refine ⟨ReplayAction.dispatchCall t e, ?_, Or.inr rfl⟩
    simp only [state_delta_bucket_trace, hmt, if_pos]
    cases bucket with
    | nil => simp at he
    | cons first rest =>
      simp only [par_bucket_trace]
      exact List.mem_append_left _ (par_bucket_go_complete he hr 0)
  · refine ⟨ReplayAction.applyCall t e, ?_, Or.inl rfl⟩
    simp only [state_delta_bucket_trace, hmt, if_neg, not_false_iff]
    exact seq_bucket_trace_complete he hr

theorem mem_delta_timepoints {start finish t : Int} (hs : 0 ≤ start)
    (hsf : start ≤ finish) :
    t ∈ delta_timepoints start finish ↔ start ≤ t ∧ t ≤ finish := by
  constructor
  · intro ht
    obtain ⟨k, hk, hkt⟩ := List.mem_map.mp ht
    rw [List.mem_range, Nat.lt_succ_iff] at hk
    omega
  · intro hb
    refine List.mem_map.mpr ⟨(t - start).toNat, ?_, ?_⟩
    · rw [List.mem_range, Nat.lt_succ_iff]
      omega
    · omega

theorem mem_state_delta_trace {h : RwnHistory π σ} {start finish mt : Int}
    {a : ReplayAction π σ} (ha : a ∈ state_delta_trace h start finish mt) :
    a = ReplayAction.drain ∨
      ∃ t b e, t ∈ delta_timepoints start finish ∧
        hash_find_int h.timepoint_hash_map t = some b ∧ e ∈ b ∧
        event_runnable e = true ∧ is_invocation_of a t e := by
  obtain ⟨t, ht, hat⟩ := List.mem_flatMap.mp ha
  cases hfind : hash_find_int h.timepoint_hash_map t with
  | none => simp [state_delta_segment, hfind] at hat
  | some bucket =>
    simp only [state_delta_segment, hfind] at hat
    by_cases hne : bucket.isEmpty
    · simp [hne] at hat
    · simp only [hne, if_false, Bool.false_eq_true] at hat
      rcases mem_bucket_trace hat with hdr | ⟨e, he, hinv, hr⟩
      · exact Or.inl hdr
      · exact Or.inr ⟨t, bucket, e, ht, hfind, he, hr, hinv⟩

theorem state_delta_trace_complete {h : RwnHistory π σ} {start finish mt t : Int}
    {bucket : List (EventListEntry π σ)} {e : EventListEntry π σ}
    (ht : t ∈ delta_timepoints start finish)
    (hfind : hash_find_int h.timepoint_hash_map t = some bucket)
    (he : e ∈ bucket) (hr : event_runnable e = true) :
    ∃ a ∈ state_delta_trace h start finish mt, is_invocation_of a t e := by
  have hne : ¬bucket.isEmpty := by
    cases bucket with
    | nil => simp at he
    | cons x xs => simp
  obtain ⟨a, hat, hinv⟩ := bucket_trace_complete (t := t) (m := mt) he hr
  refine ⟨a, ?_, hinv⟩
  refine List.mem_flatMap.mpr ⟨t, ht, ?_⟩
  simp only [state_delta_segment, hfind, hne, if_false, Bool.false_eq_true]
  exact hat

theorem state_delta_fst_eq (h : RwnHistory π σ) (s f : Int) (st : Option σ)
    (mt : Int) :
    (rwn_history_state_delta h s f st mt).1 =
      trace_evtcount (rwn_history_state_delta h s f st mt).2 := by
  by_cases h1 : s < 0 ∨ f < 0
  · simp [rwn_history_state_delta, h1, trace_evtcount]
  · by_cases h2 : f < s
    · simp [rwn_history_state_delta, h1, h2, trace_evtcount]
    · simp [rwn_history_state_delta, h1, h2]

theorem state_delta_snd_valid (h : RwnHistory π σ) {s f : Int} (h1 : 0 ≤ s)
    (h2 : s ≤ f) (st : Option σ) (mt : Int) :
    (rwn_history_state_delta h s f st mt).2 = state_delta_trace h s f mt := by
  have hg1 : ¬(s < 0 ∨ f < 0) := by omega
  have hg2 : ¬f < s := by omega
  simp [rwn_history_state_delta, hg1, hg2]

theorem mem_state_delta_snd {h : RwnHistory π σ} {s f : Int} {st : Option σ}
    {mt : Int} {a : ReplayAction π σ}
    (ha : a ∈ (rwn_history_state_delta h s f st mt).2) :
    a ∈ state_delta_trace h s f mt := by
  by_cases h1 : s < 0 ∨ f < 0
  · simp [rwn_history_state_delta, h1] at ha
  · by_cases h2 : f < s
    · simp [rwn_history_state_delta, h1, h2] at ha
    · simpa [rwn_history_state_delta, h1, h2] using ha

theorem pairwise_le_of_all_eq {l : List Int} {t : Int} (hl : ∀ x ∈ l, x = t) :
    l.Pairwise (· ≤ ·) := by
  induction l with
  | nil => exact List.Pairwise.nil
  | cons a rest ih =>
    refine List.Pairwise.cons ?_ (ih fun y hy => hl y (by simp [hy]))
    intro b hb
    rw [hl a (by simp), hl b (by simp [hb])]

theorem delta_timepoints_sorted (start finish : Int) :
    (delta_timepoints start finish).Pairwise (· < ·) := by
  refine List.Pairwise.map _ ?_ (List.pairwise_lt_range _)
  intro a b hab
  omega

theorem bucket_trace_tag {t mt : Int} {bucket : List (EventListEntry π σ)}
    {a : ReplayAction π σ} (ha : a ∈ state_delta_bucket_trace t mt bucket)
    {u : Int} (hu : replay_tag a = some u) : u = t := by
  rcases mem_bucket_trace ha with rfl | ⟨e, _, hinv, _⟩
  · simp [replay_tag] at hu
  · rcases hinv with rfl | rfl <;>
      simp only [replay_tag, Option.some.injEq] at hu <;> omega

theorem filterMap_tag_pairwise {f : Int → List (ReplayAction π σ)} :
    ∀ {tps : List Int}, tps.Pairwise (· < ·) →
    (∀ t ∈ tps, ∀ a ∈ f t, ∀ u : Int, replay_tag a = some u → u = t) →
    ((tps.flatMap f).filterMap replay_tag).Pairwise (· ≤ ·) := by
  intro tps
  induction tps with
  | nil => simp
  | cons t rest ih =>
    intro hsort htags
    rw [List.flatMap_cons, List.filterMap_append, List.pairwise_append]
    refine ⟨?_, ?_, ?_⟩
    · refine pairwise_le_of_all_eq (t := t) ?_
      intro x hx
      obtain ⟨a, ha, hax⟩ := List.mem_filterMap.mp hx
      exact htags t (by simp) a ha x hax
    · exact ih hsort.of_cons (fun u hu => htags u (by simp [hu]))
    · intro x hx y hy
      have hx2 : x = t := by
        obtain ⟨a, ha, hax⟩ := List.mem_filterMap.mp hx
        exact htags t (by simp) a ha x hax
      obtain ⟨a, ha, hay⟩ := List.mem_filterMap.mp hy
      obtain ⟨u, hu, hau⟩ := List.mem_flatMap.mp ha
      have hyu : y = u := htags u (by simp [hu]) a hau y hay
      have htu : t < u := List.rel_of_pairwise_cons hsort hu
      omega

theorem mem_all_entries_of_mem_bucket {m : List (Int × List (EventListEntry π σ))}
    {p : Int × List (EventListEntry π σ)} (hp : p ∈ m) {e : EventListEntry π σ}
    (he : e ∈ p.2) : e ∈ all_entries m := by
  unfold all_entries
  rw [List.mem_flatten]
  exact ⟨p.2, List.mem_map_of_mem _ hp, he⟩

theorem entry_unique_bucket {h : RwnHistory π σ} (hInv : HistoryInv h)
    {t u : Int} {b bu : List (EventListEntry π σ)}
    (hfi : hash_find_int h.timepoint_hash_map t = some b)
    (hfu : hash_find_int h.timepoint_hash_map u = some bu)
    (hne : u ≠ t) {e : EventListEntry π σ} (he : e ∈ b) (heu : e ∈ bu) :
    False := by
  obtain ⟨m1, m2, hm, hm1⟩ := hash_find_int_decomp hfi
  have hmem_u : (u, bu) ∈ m1 ∨ (u, bu) ∈ m2 := by
    have hmm := mem_of_hash_find_int hfu
    rw [hm] at hmm
    rcases List.mem_append.mp hmm with h1 | h2
    · exact Or.inl h1
    · rcases List.mem_cons.mp h2 with heq | h3
      · exact absurd (congrArg Prod.fst heq) hne
      · exact Or.inr h3
  have hids := hInv.ids_nodup
  rw [hm, all_entries_decomp, List.map_append, List.map_append,
    List.nodup_append, List.nodup_append] at hids
  rcases hmem_u with h1 | h2
  · have heA : e ∈ all_entries m1 := mem_all_entries_of_mem_bucket h1 heu
    exact hids.1.2.2 (List.mem_map_of_mem _ heA) (List.mem_map_of_mem _ he)
  · have heA : e ∈ all_entries m2 := mem_all_entries_of_mem_bucket h2 heu
    exact hids.2.2 (List.mem_append_right _ (List.mem_map_of_mem _ he))
      (List.mem_map_of_mem _ heA)

theorem schedule_find_at {h : RwnHistory π σ} {t : Int} (ht : ¬t < 0)
    (ph : Int) (evt : Option π) (af : Option (π → σ → σ)) (df : Bool) :
    hash_find_int (rwn_history_schedule h t ph evt af df).2.timepoint_hash_map t =
      some (ll_sort (((hash_find_int h.timepoint_hash_map t).getD []) ++
        [⟨h.next_id, evt, af, df, ph⟩])) := by
  rw [schedule_result ht ph evt af df]
  cases hfind : hash_find_int h.timepoint_hash_map t with
  | none =>
    simp only [hfind, Option.getD_none]
    rw [hash_find_int_append, hfind]
    simp [hash_find_int]
  | some bucket =>
    simp only [hfind, Option.getD_some]
    obtain ⟨m1, m2, hm, hm1⟩ := hash_find_int_decomp hfind
    rw [hm, hash_update_decomp hm1, hash_find_int_append, hm1]
    simp [hash_find_int]

/-! Claim theorems. -/

/-- C1: with events E1(phase 1, +1), E2(phase 0, ×1), E3(phase 1, +2),
E4(phase 0, ×2) scheduled at timepoint 0 in that insertion order (ids
0, 1, 2, 3), the sequential call state_delta(0, 0, state, 0) invokes the
apply behaviors exactly in the order E2, E4, E1, E3, and the resulting
state is 3 when starting from 0 and 5 when starting from 1. -/
theorem c1_phase_ordering_example :
    invocation_ids (rwn_history_state_delta c1_history 0 0 (some 0) 0).2 =
      [1, 3, 0, 2] ∧
    rwn_history_state_delta_seq_state c1_history 0 0 0 = 3 ∧
    rwn_history_state_delta_seq_state c1_history 0 0 1 = 5 :=
  ⟨rfl, rfl, rfl⟩

/-- C6: scheduling at a negative timepoint returns a null handle and leaves
the history (hence count_events at every timepoint) unchanged; moreover
count_events is 0 at every negative or absent timepoint. -/
theorem c6_negative_schedule_rejected (h : RwnHistory π σ) (t ph : Int)
    (evt : Option π) (af : Option (π → σ → σ)) (df : Bool) (ht : t < 0) :
    rwn_history_schedule h t ph evt af df = (none, h) ∧
    (∀ u : Int, rwn_history_count_events (rwn_history_schedule h t ph evt af df).2 u =
      rwn_history_count_events h u) ∧
    (∀ u : Int, (u < 0 ∨ hash_find_int h.timepoint_hash_map u = none) →
      rwn_history_count_events h u = 0) := by
  have h1 : rwn_history_schedule h t ph evt af df = (none, h) := by
    simp [rwn_history_schedule, ht]
  refine ⟨h1, fun u => by rw [h1], fun u hu => ?_⟩
  rcases hu with hneg | habs
  · simp [rwn_history_count_events, hneg]
  · by_cases hu0 : u < 0
    · simp [rwn_history_count_events, hu0]
    · simp [rwn_history_count_events, hu0, habs]

theorem c6_negative_schedule_rejected_witness :
    (-1 : Int) < 0 ∧
    (rwn_history_schedule (rwn_history_create : RwnHistory Int Int) (-1) 0
        (some 5) none false = (none, rwn_history_create) ∧
      (∀ u : Int, rwn_history_count_events
          (rwn_history_schedule (rwn_history_create : RwnHistory Int Int) (-1) 0
            (some 5) none false).2 u =
        rwn_history_count_events (rwn_history_create : RwnHistory Int Int) u) ∧
      (∀ u : Int,
        (u < 0 ∨ hash_find_int
            (rwn_history_create : RwnHistory Int Int).timepoint_hash_map u = none) →
        rwn_history_count_events (rwn_history_create : RwnHistory Int Int) u = 0)) :=
  ⟨by decide, c6_negative_schedule_rejected _ _ _ _ _ _ (by decide)⟩

/-- C8: in every reachable history, every timepoint present as a key of the
map carries a non-empty bucket, so count_events there is positive (buckets
are created lazily by schedule and evicted by the removal of their last
record). -/
theorem c8_nonempty_bucket_invariant {h : RwnHistory π σ} (hr : Reachable h) :
    ∀ p ∈ h.timepoint_hash_map, p.2 ≠ [] ∧ 0 < rwn_history_count_events h p.1 := by
  have hInv := reachable_inv hr
  intro p hp
  refine ⟨hInv.buckets_nonempty p hp, ?_⟩
  have hfind : hash_find_int h.timepoint_hash_map p.1 = some p.2 := by
    rcases p with ⟨t, b⟩
    exact hash_find_int_of_mem hInv.keys_nodup hp
  have ht := hInv.keys_nonneg p hp
  have hlen : 0 < p.2.length :=
    List.length_pos.mpr (hInv.buckets_nonempty p hp)
  simp only [rwn_history_count_events, not_lt.mpr ht, if_false, hfind]
  exact_mod_cast hlen

theorem c8_nonempty_bucket_invariant_witness :
    ([(⟨1, some 1, some mult_apply, false, 0⟩ : EventListEntry Int Int),
        ⟨3, some 2, some mult_apply, false, 0⟩,
        ⟨0, some 1, some incr_apply, false, 1⟩,
        ⟨2, some 2, some incr_apply, false, 1⟩] :
      List (EventListEntry Int Int)) ≠ [] ∧
    0 < rwn_history_count_events c1_history 0 :=
  c8_nonempty_bucket_invariant
    (Reachable.schedule 0 0 (some 2) (some mult_apply) false
      (Reachable.schedule 0 1 (some 2) (some incr_apply) false
        (Reachable.schedule 0 0 (some 1) (some mult_apply) false
          (Reachable.schedule 0 1 (some 1) (some incr_apply) false
            Reachable.create))))
    (0, [⟨1, some 1, some mult_apply, false, 0⟩,
      ⟨3, some 2, some mult_apply, false, 0⟩,
      ⟨0, some 1, some incr_apply, false, 1⟩,
      ⟨2, some 2, some incr_apply, false, 1⟩])
    (List.mem_cons_self _ _)

/-- C3 counterexample: on the history holding one ordinary event (payload
7, apply behavior present) at timepoint 0, the sequential call
state_delta(0, 0, NULL, 0) invokes the event's apply behavior (record id 0
appears in the invocation trace) and returns 1, not 0: a null state does
not suppress application in the phase-aware source. -/
theorem c3_null_state_not_suppressed :
    (rwn_history_state_delta one_event_history 0 0 (none : Option Int) 0).1 = 1 ∧
    invocation_ids
      (rwn_history_state_delta one_event_history 0 0 (none : Option Int) 0).2 = [0] ∧
    (1 : Int) ≠ 0 :=
  ⟨rfl, rfl, by decide⟩

/-- C3 (amended): state_delta returns exactly the number of apply-behavior
invocations it performs; a record lacking an apply behavior or a payload
reference is never invoked nor counted; and the state pointer — including
NULL, in sequential as well as parallel mode — has no effect on which
records are applied or on the returned count. -/
theorem c3_count_semantics (h : RwnHistory π σ) (start finish : Int)
    (st st2 : Option σ) (mt : Int) :
    (rwn_history_state_delta h start finish st mt).1 =
      trace_evtcount (rwn_history_state_delta h start finish st mt).2 ∧
    (∀ a ∈ (rwn_history_state_delta h start finish st mt).2,
      ∀ t : Int, ∀ e : EventListEntry π σ, is_invocation_of a t e →
        e.user_event.isSome = true ∧ e.user_event_apply_func.isSome = true) ∧
    rwn_history_state_delta h start finish st mt =
      rwn_history_state_delta h start finish st2 mt := by
  refine ⟨?_, ?_, rfl⟩
  · by_cases h1 : start < 0 ∨ finish < 0
    · simp [rwn_history_state_delta, h1, trace_evtcount]
    · by_cases h2 : finish < start
      · simp [rwn_history_state_delta, h1, h2, trace_evtcount]
      · simp [rwn_history_state_delta, h1, h2]
  · intro a ha t e hinv
    have ha2 : a ∈ state_delta_trace h start finish mt := by
      by_cases h1 : start < 0 ∨ finish < 0
      · simp [rwn_history_state_delta, h1] at ha
      · by_cases h2 : finish < start
        · simp [rwn_history_state_delta, h1, h2] at ha
        · simpa [rwn_history_state_delta, h1, h2] using ha
    rcases mem_state_delta_trace ha2 with hdr | ⟨t2, b2, e2, _, _, _, hr2, hinv2⟩
    · rcases hinv with rfl | rfl <;> simp at hdr
    · have hee : e = e2 := by
        rcases hinv with rfl | rfl <;> rcases hinv2 with heq | heq
        · injection heq with h1 h2
        · exact absurd heq (by simp)
        · exact absurd heq (by simp)
        · injection heq with h1 h2
      subst hee
      simp only [event_runnable, Bool.and_eq_true] at hr2
      exact ⟨hr2.1, hr2.2⟩

/-- C7: for every reachable history and timepoint t ≥ 0, get_events writes
exactly count_events payload references (the returned int is that length),
taken in the bucket's order, and the bucket is sorted by phase ascending
with phase ties in insertion order (ids grow with insertion); the history
itself is untouched (get_events is a pure read in the model). -/
theorem c7_get_events_ordered {h : RwnHistory π σ} (hr : Reachable h)
    (t : Int) (ht : 0 ≤ t) :
    ((rwn_history_get_events h t).length : Int) = rwn_history_count_events h t ∧
    (match hash_find_int h.timepoint_hash_map t with
      | some b => rwn_history_get_events h t = b.map (fun e => e.user_event) ∧
          b.Pairwise entry_lex_lt
      | none => rwn_history_get_events h t = []) := by
  have hInv := reachable_inv hr
  have hnneg : ¬t < 0 := not_lt.mpr ht
  cases hfind : hash_find_int h.timepoint_hash_map t with
  | none =>
    have hcount : rwn_history_count_events h t = 0 := by
      simp [rwn_history_count_events, hnneg, hfind]
    have hget : rwn_history_get_events h t = [] := by
      simp [rwn_history_get_events, hcount]
    rw [hget, hcount]
    simp
  | some b =>
    have hmem : (t, b) ∈ h.timepoint_hash_map := mem_of_hash_find_int hfind
    have hne : b ≠ [] := hInv.buckets_nonempty _ hmem
    have hlenpos : 0 < b.length := List.length_pos.mpr hne
    have hcount : rwn_history_count_events h t = (b.length : Int) := by
      simp [rwn_history_count_events, hnneg, hfind]
    have hpos : ¬rwn_history_count_events h t ≤ 0 := by
      rw [hcount]
      exact_mod_cast not_le.mpr hlenpos
    have hget : rwn_history_get_events h t = b.map (fun e => e.user_event) := by
      simp [rwn_history_get_events, hpos, hfind]
    refine ⟨?_, ?_⟩
    · rw [hget, hcount]
      simp
    · exact ⟨hget, hInv.buckets_sorted _ hmem⟩

theorem c7_get_events_ordered_witness :
    (0 : Int) ≤ 0 ∧
    (((rwn_history_get_events c1_history 0).length : Int) =
        rwn_history_count_events c1_history 0 ∧
      (match hash_find_int c1_history.timepoint_hash_map 0 with
        | some b => rwn_history_get_events c1_history 0 =
              b.map (fun e => e.user_event) ∧ b.Pairwise entry_lex_lt
        | none => rwn_history_get_events c1_history 0 = [])) :=
  ⟨by decide,
    c7_get_events_ordered
      (Reachable.schedule 0 0 (some 2) (some mult_apply) false
        (Reachable.schedule 0 1 (some 2) (some incr_apply) false
          (Reachable.schedule 0 0 (some 1) (some mult_apply) false
            (Reachable.schedule 0 1 (some 1) (some incr_apply) false
              Reachable.create)))) 0 (by decide)⟩

/-! The teardown trace. -/

theorem destroy_bucket_calls_eq (l : List (EventListEntry π σ)) :
    destroy_bucket_calls l =
      (l.filter (fun e => e.user_event_destroy_func)).map
        (fun e => CallbackCall.destroyCall e.id) := by
  induction l with
  | nil => simp [destroy_bucket_calls]
  | cons e rest ih =>
    by_cases hf : e.user_event_destroy_func
    · simp [destroy_bucket_calls, hf, ih]
    · simp [destroy_bucket_calls, hf, ih]

theorem destroy_calls_eq (h : RwnHistory π σ) :
    rwn_history_destroy h =
      ((all_entries h.timepoint_hash_map).filter
        (fun e => e.user_event_destroy_func)).map
        (fun e => CallbackCall.destroyCall e.id) := by
  show (h.timepoint_hash_map.map (fun p => destroy_bucket_calls p.2)).flatten = _
  induction h.timepoint_hash_map with
  | nil => simp [all_entries]
  | cons p rest ih =>
    have hall : all_entries (p :: rest) = p.2 ++ all_entries rest := by
      simp [all_entries]
    rw [List.map_cons, List.flatten_cons, ih, hall, List.filter_append,
      List.map_append, destroy_bucket_calls_eq]

/-- C5: tearing the history down runs only destroy behaviors (never an
apply behavior), and runs the destroy behavior of each still-scheduled
record that has one exactly once (count 1 in the trace; records without a
destroy behavior are never passed to one: count 0). -/
theorem c5_destroy_exactly_once {h : RwnHistory π σ} (hr : Reachable h) :
    (∀ c ∈ rwn_history_destroy h, ∃ i, c = CallbackCall.destroyCall i) ∧
    (∀ p ∈ h.timepoint_hash_map, ∀ e ∈ p.2,
      (rwn_history_destroy h).count (CallbackCall.destroyCall e.id) =
        if e.user_event_destroy_func then 1 else 0) := by
  have hInv := reachable_inv hr
  have hinj : Function.Injective CallbackCall.destroyCall := by
    intro a b hab
    injection hab
  constructor
  · intro c hc
    rw [destroy_calls_eq] at hc
    obtain ⟨e, _, rfl⟩ := List.mem_map.mp hc
    exact ⟨e.id, rfl⟩
  · intro p hp e he
    have hemem : e ∈ all_entries h.timepoint_hash_map :=
      mem_all_entries_of_mem_bucket hp he
    rw [destroy_calls_eq]
    have hmapmap :
        ((all_entries h.timepoint_hash_map).filter
            (fun e2 => e2.user_event_destroy_func)).map
            (fun e2 => CallbackCall.destroyCall e2.id) =
          (((all_entries h.timepoint_hash_map).filter
            (fun e2 => e2.user_event_destroy_func)).map
            (fun e2 => e2.id)).map CallbackCall.destroyCall := by
      rw [List.map_map]
      rfl
    rw [hmapmap, List.count_map_of_injective _ _ hinj]
    by_cases hf : e.user_event_destroy_func
    · rw [if_pos hf]
      have hW : e.id ∈ ((all_entries h.timepoint_hash_map).filter
          (fun e2 => e2.user_event_destroy_func)).map (fun e2 => e2.id) :=
        List.mem_map_of_mem _ (List.mem_filter.mpr ⟨hemem, hf⟩)
      have hWnodup : (((all_entries h.timepoint_hash_map).filter
          (fun e2 => e2.user_event_destroy_func)).map (fun e2 => e2.id)).Nodup :=
        hInv.ids_nodup.sublist ((List.filter_sublist _).map _)
      exact List.count_eq_one_of_mem hWnodup hW
    · rw [if_neg hf]
      refine List.count_eq_zero.mpr ?_
      intro hW
      obtain ⟨e2, he2, heid⟩ := List.mem_map.mp hW
      have he2f := List.mem_filter.mp he2
      have he2all := he2f.1
      have : e2 = e :=
        List.inj_on_of_nodup_map hInv.ids_nodup he2all hemem heid
      subst this
      exact hf (by simpa using he2f.2)

theorem c5_destroy_exactly_once_witness :
    (∀ c ∈ rwn_history_destroy destroy_flag_history,
      ∃ i, c = CallbackCall.destroyCall i) ∧
    (∀ p ∈ destroy_flag_history.timepoint_hash_map, ∀ e ∈ p.2,
      (rwn_history_destroy destroy_flag_history).count
          (CallbackCall.destroyCall e.id) =
        if e.user_event_destroy_func then 1 else 0) :=
  c5_destroy_exactly_once
    (Reachable.schedule 0 0 (some 8) none false
      (Reachable.schedule 0 0 (some 7) none true Reachable.create))

/-- C2 counterexample: a record with a NULL payload reference but a present
apply behavior is scheduled at timepoint 0 (count_events 0 = 1, and the
single stored record has an apply behavior), yet state_delta(0, 0, state, 0)
applies nothing: the returned count is 0 and the engine trace is empty —
the user_event != NULL guard filters it out, so "every event with an apply
behavior in range is applied" fails as stated. -/
theorem c2_null_payload_event_skipped :
    rwn_history_count_events null_payload_history 0 = 1 ∧
    (all_entries null_payload_history.timepoint_hash_map).map
      (fun e => e.user_event_apply_func.isSome) = [true] ∧
    (rwn_history_state_delta null_payload_history 0 0 (some 0) 0).1 = 0 ∧
    (rwn_history_state_delta null_payload_history 0 0 (some 0) 0).2 = [] :=
  ⟨rfl, rfl, rfl, rfl⟩

/-- C2 (amended): for every reachable history, state and thread bound, and
0 ≤ start ≤ finish, state_delta visits the timepoints of the inclusive
range [start, finish] in ascending order (the invocation tags of the trace
are nondecreasing); every record with a non-null payload reference and a
non-null apply behavior stored at a mapped timepoint of the range — in
particular at finish itself — is applied (it has an invocation in the
trace, each of which contributes 1 to the returned count); every invocation
belongs to a record stored inside the range; and no record of a bucket
mapped outside the range is ever invoked. -/
theorem c2_inclusive_range_replay {h : RwnHistory π σ} (hr : Reachable h)
    {start finish : Int} (hs : 0 ≤ start) (hsf : start ≤ finish)
    (st : Option σ) (mt : Int) :
    ((rwn_history_state_delta h start finish st mt).2.filterMap
      replay_tag).Pairwise (· ≤ ·) ∧
    (∀ t b, hash_find_int h.timepoint_hash_map t = some b →
      start ≤ t → t ≤ finish → ∀ e ∈ b, event_runnable e = true →
        ∃ a ∈ (rwn_history_state_delta h start finish st mt).2,
          is_invocation_of a t e) ∧
    (∀ a ∈ (rwn_history_state_delta h start finish st mt).2,
      ∀ t : Int, ∀ e : EventListEntry π σ, is_invocation_of a t e →
        start ≤ t ∧ t ≤ finish ∧
        ∃ b, hash_find_int h.timepoint_hash_map t = some b ∧ e ∈ b) ∧
    (∀ u bu, (u < start ∨ finish < u) →
      hash_find_int h.timepoint_hash_map u = some bu →
      ∀ e ∈ bu, ∀ a ∈ (rwn_history_state_delta h start finish st mt).2,
        ∀ t : Int, ¬is_invocation_of a t e) ∧
    (rwn_history_state_delta h start finish st mt).1 =
      trace_evtcount (rwn_history_state_delta h start finish st mt).2 := by
  have hInv := reachable_inv hr
  rw [state_delta_snd_valid h hs hsf st mt]
  refine ⟨?_, ?_, ?_, ?_, ?_⟩
  · refine filterMap_tag_pairwise (delta_timepoints_sorted start finish) ?_
    intro t ht a ha u hu
    cases hfind : hash_find_int h.timepoint_hash_map t with
    | none => simp [state_delta_segment, hfind] at ha
    | some bucket =>
      simp only [state_delta_segment, hfind] at ha
      by_cases hne : bucket.isEmpty
      · simp [hne] at ha
      · simp only [hne, if_false, Bool.false_eq_true] at ha
        exact bucket_trace_tag ha hu
  · intro t b hfind h1 h2 e he hr2
    exact state_delta_trace_complete
      ((mem_delta_timepoints hs hsf).mpr ⟨h1, h2⟩) hfind he hr2
  · intro a ha t e hinv
    rcases mem_state_delta_trace ha with hdr | ⟨t2, b2, e2, ht2, hfind2, he2, hr2, hinv2⟩
    · rcases hinv with rfl | rfl <;> simp at hdr
    · have hte : t = t2 ∧ e = e2 := by
        rcases hinv with rfl | rfl <;> rcases hinv2 with heq | heq
        · injection heq with hh1 hh2
          exact ⟨hh1, hh2⟩
        · exact absurd heq (by simp)
        · exact absurd heq (by simp)
        · injection heq with hh1 hh2
          exact ⟨hh1, hh2⟩
      obtain ⟨rfl, rfl⟩ := hte
      have hb := (mem_delta_timepoints hs hsf).mp ht2
      exact ⟨hb.1, hb.2, b2, hfind2, he2⟩
  · intro u bu hu hfu e he a ha t hinv
    rcases mem_state_delta_trace ha with hdr | ⟨t2, b2, e2, ht2, hfind2, he2, hr2, hinv2⟩
    · rcases hinv with rfl | rfl <;> simp at hdr
    · have hte : t = t2 ∧ e = e2 := by
        rcases hinv with rfl | rfl <;> rcases hinv2 with heq | heq
        · injection heq with hh1 hh2
          exact ⟨hh1, hh2⟩
        · exact absurd heq (by simp)
        · exact absurd heq (by simp)
        · injection heq with hh1 hh2
          exact ⟨hh1, hh2⟩
      obtain ⟨rfl, rfl⟩ := hte
      have hb := (mem_delta_timepoints hs hsf).mp ht2
      have hut : u ≠ t := by omega
      exact entry_unique_bucket hInv hfind2 hfu hut he2 he
  · rw [← state_delta_snd_valid h hs hsf st mt]
    exact state_delta_fst_eq h start finish st mt

theorem c2_inclusive_range_replay_witness :
    (0 : Int) ≤ 0 ∧
    (((rwn_history_state_delta c1_history 0 0 (some 0) 0).2.filterMap
        replay_tag).Pairwise (· ≤ ·) ∧
      (∀ t b, hash_find_int c1_history.timepoint_hash_map t = some b →
        0 ≤ t → t ≤ 0 → ∀ e ∈ b, event_runnable e = true →
          ∃ a ∈ (rwn_history_state_delta c1_history 0 0 (some 0) 0).2,
            is_invocation_of a t e) ∧
      (∀ a ∈ (rwn_history_state_delta c1_history 0 0 (some 0) 0).2,
        ∀ t : Int, ∀ e : EventListEntry Int Int, is_invocation_of a t e →
          0 ≤ t ∧ t ≤ 0 ∧
          ∃ b, hash_find_int c1_history.timepoint_hash_map t = some b ∧ e ∈ b) ∧
      (∀ u bu, (u < 0 ∨ 0 < u) →
        hash_find_int c1_history.timepoint_hash_map u = some bu →
        ∀ e ∈ bu, ∀ a ∈ (rwn_history_state_delta c1_history 0 0 (some 0) 0).2,
          ∀ t : Int, ¬is_invocation_of a t e) ∧
      (rwn_history_state_delta c1_history 0 0 (some 0) 0).1 =
        trace_evtcount (rwn_history_state_delta c1_history 0 0 (some 0) 0).2) :=
  ⟨by decide,
    c2_inclusive_range_replay
      (Reachable.schedule 0 0 (some 2) (some mult_apply) false
        (Reachable.schedule 0 1 (some 2) (some incr_apply) false
          (Reachable.schedule 0 0 (some 1) (some mult_apply) false
            (Reachable.schedule 0 1 (some 1) (some incr_apply) false
              Reachable.create))))
      (by decide) (by decide) (some 0) 0⟩

theorem count_events_nonneg (h : RwnHistory π σ) (t : Int) :
    0 ≤ rwn_history_count_events h t := by
  by_cases ht : t < 0
  · simp [rwn_history_count_events, ht]
  · cases hfind : hash_find_int h.timepoint_hash_map t with
    | none => simp [rwn_history_count_events, ht, hfind]
    | some b =>
      simp only [rwn_history_count_events, ht, if_false, hfind]
      positivity

/-- C10 (implicit): scheduling a record with a NULL payload reference but a
non-null apply behavior succeeds (returns a fresh handle), bumps
count_events at its timepoint by one, and its NULL payload reference is
among the references get_events writes; yet state_delta over any range and
any mode never invokes that record's apply behavior (no invocation in the
trace carries its id, and the returned count only counts invocations in
the trace). -/
theorem c10_null_payload_inert {h : RwnHistory π σ} (hr : Reachable h)
    {t : Int} (ht : 0 ≤ t) (ph : Int) (af : π → σ → σ) (df : Bool) :
    (rwn_history_schedule h t ph none (some af) df).1 = some ⟨t, h.next_id⟩ ∧
    rwn_history_count_events (rwn_history_schedule h t ph none (some af) df).2 t =
      rwn_history_count_events h t + 1 ∧
    none ∈ rwn_history_get_events
      (rwn_history_schedule h t ph none (some af) df).2 t ∧
    (∀ start finish : Int, ∀ st : Option σ, ∀ mt : Int,
      (∀ a ∈ (rwn_history_state_delta
          (rwn_history_schedule h t ph none (some af) df).2 start finish st mt).2,
        ∀ u : Int, ∀ e : EventListEntry π σ,
          is_invocation_of a u e → e.id ≠ h.next_id) ∧
      (rwn_history_state_delta
          (rwn_history_schedule h t ph none (some af) df).2 start finish st mt).1 =
        trace_evtcount (rwn_history_state_delta
          (rwn_history_schedule h t ph none (some af) df).2 start finish st mt).2) := by
  have hInv := reachable_inv hr
  have htn : ¬t < 0 := not_lt.mpr ht
  have hfind2 := schedule_find_at (h := h) htn ph (none : Option π) (some af) df
  have hlen : (ll_sort (((hash_find_int h.timepoint_hash_map t).getD []) ++
      [(⟨h.next_id, none, some af, df, ph⟩ : EventListEntry π σ)])).length =
      ((hash_find_int h.timepoint_hash_map t).getD []).length + 1 := by
    rw [(ll_sort_perm _).length_eq]
    simp
  have hcount : rwn_history_count_events
      (rwn_history_schedule h t ph none (some af) df).2 t =
      rwn_history_count_events h t + 1 := by
    simp only [rwn_history_count_events, htn, if_false, hfind2, hlen]
    cases hfind : hash_find_int h.timepoint_hash_map t with
    | none => simp [hfind] at hlen ⊢
    | some b =>
      simp only [hfind, Option.getD_some] at hlen ⊢
      push_cast [hlen]
      ring
  refine ⟨by rw [schedule_result htn ph none (some af) df], hcount, ?_, ?_⟩
  · have hpos : ¬rwn_history_count_events
        (rwn_history_schedule h t ph none (some af) df).2 t ≤ 0 := by
      have := count_events_nonneg h t
      omega
    have hget : rwn_history_get_events
        (rwn_history_schedule h t ph none (some af) df).2 t =
        (ll_sort (((hash_find_int h.timepoint_hash_map t).getD []) ++
          [(⟨h.next_id, none, some af, df, ph⟩ : EventListEntry π σ)])).map
          (fun e => e.user_event) := by
      simp [rwn_history_get_events, hpos, hfind2]
    rw [hget]
    refine List.mem_map.mpr ⟨⟨h.next_id, none, some af, df, ph⟩, ?_, rfl⟩
    refine (ll_sort_perm _).mem_iff.mpr ?_
    exact List.mem_append_right _ (by simp)
  · intro start finish st mt
    refine ⟨?_, state_delta_fst_eq _ start finish st mt⟩
    intro a ha u e hinv
    have ha2 := mem_state_delta_snd ha
    rcases mem_state_delta_trace ha2 with hdr | ⟨t2, b2, e2, ht2, hfind3, he2, hr2, hinv2⟩
    · rcases hinv with rfl | rfl <;> simp at hdr
    · have hee : e = e2 := by
        rcases hinv with rfl | rfl <;> rcases hinv2 with heq | heq
        · injection heq with hh1 hh2
        · exact absurd heq (by simp)
        · exact absurd heq (by simp)
        · injection heq with hh1 hh2
      subst hee
      intro hid
      have hmem2 : e ∈ all_entries
          (rwn_history_schedule h t ph none (some af) df).2.timepoint_hash_map :=
        mem_all_entries_of_mem_bucket (mem_of_hash_find_int hfind3) he2
      have := (schedule_map_perm htn ph none (some af) df).mem_iff.mp hmem2
      rcases List.mem_append.mp this with hold | hnew
      · exact absurd hid (Nat.ne_of_lt (hInv.ids_bound e hold))
      · rcases List.mem_singleton.mp hnew with rfl
        simp [event_runnable] at hr2

theorem c10_null_payload_inert_witness :
    (0 : Int) ≤ 0 ∧
    ((rwn_history_schedule (rwn_history_create : RwnHistory Int Int) 0 0 none
        (some incr_apply) false).1 = some ⟨0, 0⟩ ∧
      rwn_history_count_events (rwn_history_schedule
        (rwn_history_create : RwnHistory Int Int) 0 0 none
        (some incr_apply) false).2 0 =
        rwn_history_count_events (rwn_history_create : RwnHistory Int Int) 0 + 1 ∧
      none ∈ rwn_history_get_events (rwn_history_schedule
        (rwn_history_create : RwnHistory Int Int) 0 0 none
        (some incr_apply) false).2 0 ∧
      (∀ start finish : Int, ∀ st : Option Int, ∀ mt : Int,
        (∀ a ∈ (rwn_history_state_delta (rwn_history_schedule
            (rwn_history_create : RwnHistory Int Int) 0 0 none
            (some incr_apply) false).2 start finish st mt).2,
          ∀ u : Int, ∀ e : EventListEntry Int Int,
            is_invocation_of a u e → e.id ≠ 0) ∧
        (rwn_history_state_delta (rwn_history_schedule
            (rwn_history_create : RwnHistory Int Int) 0 0 none
            (some incr_apply) false).2 start finish st mt).1 =
          trace_evtcount (rwn_history_state_delta (rwn_history_schedule
            (rwn_history_create : RwnHistory Int Int) 0 0 none
            (some incr_apply) false).2 start finish st mt).2)) :=
  ⟨by decide, c10_null_payload_inert Reachable.create (by decide) 0 incr_apply false⟩

theorem unschedule_handle_list (h : RwnHistory π σ) (eh : RwnEventHandle) :
    (rwn_history_unschedule h eh).event_handle_list =
      ll_delete_handle h.event_handle_list eh := by
  cases hfind : hash_find_int h.timepoint_hash_map eh.timepoint <;>
    simp [rwn_history_unschedule, hfind]

theorem ll_delete_handle_append_cons {pre rest : List RwnEventHandle}
    {eh : RwnEventHandle} (hnot : ∀ x ∈ pre, x ≠ eh) :
    ll_delete_handle (pre ++ eh :: rest) eh = pre ++ rest := by
  induction pre with
  | nil => simp [ll_delete_handle]
  | cons x xs ih =>
    have hx : x ≠ eh := hnot x (by simp)
    simp [ll_delete_handle, hx, ih (fun y hy => hnot y (by simp [hy]))]

theorem unschedule_find_ne (h : RwnHistory π σ) (eh : RwnEventHandle) {u : Int}
    (hu : u ≠ eh.timepoint) :
    hash_find_int (rwn_history_unschedule h eh).timepoint_hash_map u =
      hash_find_int h.timepoint_hash_map u := by
  cases hfind : hash_find_int h.timepoint_hash_map eh.timepoint with
  | none => simp [rwn_history_unschedule, hfind]
  | some bucket =>
    simp only [rwn_history_unschedule, hfind]
    by_cases hlen : (ll_delete_entry bucket eh.event_list_elem).length = 0
    · simp [hlen, hash_find_hash_del_ne hu]
    · simp [hlen, hash_find_hash_update_ne hu]

theorem unschedule_all_go_spec (s f : Int) :
    ∀ (hs pre : List RwnEventHandle) (h : RwnHistory π σ),
      h.event_handle_list = pre ++ hs →
      ((pre ++ hs).map (fun eh => eh.event_list_elem)).Nodup →
      (unschedule_all_go h hs s f).1.event_handle_list =
          pre ++ hs.filter (fun eh => !handle_in_range s f eh) ∧
        (unschedule_all_go h hs s f).2 =
          ((hs.filter (handle_in_range s f)).length : Int) ∧
        (∀ u : Int, (u < s ∨ f < u) →
          hash_find_int (unschedule_all_go h hs s f).1.timepoint_hash_map u =
            hash_find_int h.timepoint_hash_map u) := by
  intro hs
  induction hs with
  | nil =>
    intro pre h hlist _
    refine ⟨?_, by simp [unschedule_all_go], fun u _ => rfl⟩
    simpa [unschedule_all_go] using hlist
  | cons eh rest ih =>
    intro pre h hlist hnodup
    by_cases hc : handle_in_range s f eh
    · have hnoteh : ∀ x ∈ pre, x ≠ eh := by
        intro x hx hxe
        subst hxe
        rw [List.map_append, List.nodup_append] at hnodup
        exact hnodup.2.2 (List.mem_map_of_mem _ hx)
          (List.mem_map_of_mem _ (List.mem_cons_self _ _))
      have hlist2 : (rwn_history_unschedule h eh).event_handle_list = pre ++ rest := by
        rw [unschedule_handle_list, hlist, ll_delete_handle_append_cons hnoteh]
      have hnodup2 : ((pre ++ rest).map (fun eh2 => eh2.event_list_elem)).Nodup := by
        refine hnodup.sublist (List.Sublist.map _ ?_)
        exact (List.Sublist.refl pre).append (List.sublist_cons_self eh rest)
      obtain ⟨ihl, ihc, ihf⟩ := ih pre (rwn_history_unschedule h eh) hlist2 hnodup2
      have hgo : unschedule_all_go h (eh :: rest) s f =
          ((unschedule_all_go (rwn_history_unschedule h eh) rest s f).1,
            (unschedule_all_go (rwn_history_unschedule h eh) rest s f).2 + 1) := by
        simp [unschedule_all_go, hc]
      refine ⟨?_, ?_, ?_⟩
      · rw [hgo]
        simpa [hc] using ihl
      · rw [hgo]
        simp only [List.filter_cons, hc]
        rw [ihc]
        push_cast
        simp
      · intro u hu
        rw [hgo]
        have hrange := of_decide_eq_true hc
        have hune : u ≠ eh.timepoint := by omega
        rw [ihf u hu, unschedule_find_ne h eh hune]
    · have hlist2 : h.event_handle_list = (pre ++ [eh]) ++ rest := by
        rw [hlist]
        simp
      have hnodup2 : (((pre ++ [eh]) ++ rest).map
          (fun eh2 => eh2.event_list_elem)).Nodup := by
        refine (List.Perm.map _ ?_).nodup_iff.mpr hnodup
        simp
      obtain ⟨ihl, ihc, ihf⟩ := ih (pre ++ [eh]) h hlist2 hnodup2
      have hgo : unschedule_all_go h (eh :: rest) s f =
          unschedule_all_go h rest s f := by
        simp [unschedule_all_go, hc]
      refine ⟨?_, ?_, ?_⟩
      · rw [hgo, ihl]
        simp [hc]
      · rw [hgo, ihc]
        simp [List.filter_cons, hc]
      · intro u hu
        rw [hgo]
        exact ihf u hu

/-- C4: with an invalid range (start < 0, finish < 0, or finish < start)
unschedule_all returns 0 and leaves the history untouched; with a valid
range it returns exactly the number of currently registered handles whose
timepoint lies in the inclusive range, the surviving registry is exactly
the out-of-range handles, and every bucket mapped at a timepoint outside
the range (hence the count_events there) is unchanged. -/
theorem c4_unschedule_all_range {h : RwnHistory π σ} (hr : Reachable h)
    (s f : Int) :
    ((s < 0 ∨ f < 0 ∨ f < s) → rwn_history_unschedule_all h s f = (h, 0)) ∧
    (0 ≤ s → 0 ≤ f → s ≤ f →
      (rwn_history_unschedule_all h s f).2 =
          ((h.event_handle_list.filter (handle_in_range s f)).length : Int) ∧
        (rwn_history_unschedule_all h s f).1.event_handle_list =
          h.event_handle_list.filter (fun eh => !handle_in_range s f eh) ∧
        (∀ u : Int, (u < s ∨ f < u) →
          hash_find_int (rwn_history_unschedule_all h s f).1.timepoint_hash_map u =
              hash_find_int h.timepoint_hash_map u ∧
            rwn_history_count_events (rwn_history_unschedule_all h s f).1 u =
              rwn_history_count_events h u)) := by
  have hInv := reachable_inv hr
  constructor
  · intro hbad
    by_cases h1 : s < 0 ∨ f < 0
    · simp [rwn_history_unschedule_all, h1]
    · have h2 : f < s := by omega
      simp [rwn_history_unschedule_all, h1, h2]
  · intro hs0 hf0 hsf
    have h1 : ¬(s < 0 ∨ f < 0) := by omega
    have h2 : ¬f < s := by omega
    have hall : rwn_history_unschedule_all h s f =
        unschedule_all_go h h.event_handle_list s f := by
      simp [rwn_history_unschedule_all, h1, h2]
    obtain ⟨hl, hc, hf2⟩ := unschedule_all_go_spec s f h.event_handle_list [] h
      (by simp) (by simpa using hInv.handles_nodup)
    rw [hall]
    refine ⟨hc, by simpa using hl, ?_⟩
    intro u hu
    refine ⟨hf2 u hu, ?_⟩
    simp only [rwn_history_count_events, hf2 u hu]

theorem c4_unschedule_all_range_witness :
    ((0 : Int) < 0 ∨ (0 : Int) < 0 ∨ (0 : Int) < 0 →
      rwn_history_unschedule_all c1_history 0 0 = (c1_history, 0)) ∧
    ((0 : Int) ≤ 0 → (0 : Int) ≤ 0 → (0 : Int) ≤ 0 →
      (rwn_history_unschedule_all c1_history 0 0).2 =
          ((c1_history.event_handle_list.filter (handle_in_range 0 0)).length : Int) ∧
        (rwn_history_unschedule_all c1_history 0 0).1.event_handle_list =
          c1_history.event_handle_list.filter (fun eh => !handle_in_range 0 0 eh) ∧
        (∀ u : Int, (u < 0 ∨ 0 < u) →
          hash_find_int
              (rwn_history_unschedule_all c1_history 0 0).1.timepoint_hash_map u =
              hash_find_int c1_history.timepoint_hash_map u ∧
            rwn_history_count_events (rwn_history_unschedule_all c1_history 0 0).1 u =
              rwn_history_count_events c1_history u)) :=
  c4_unschedule_all_range
    (Reachable.schedule 0 0 (some 2) (some mult_apply) false
      (Reachable.schedule 0 1 (some 2) (some incr_apply) false
        (Reachable.schedule 0 0 (some 1) (some mult_apply) false
          (Reachable.schedule 0 1 (some 1) (some incr_apply) false
            Reachable.create)))) 0 0

/-! Structure lemmas for the bounded-parallel trace (claim C9). -/

theorem flatMap_eq_append_cons {α β : Type} {f : α → List β} :
    ∀ {l : List α} {u v : List β} {x : β},
      l.flatMap f = u ++ x :: v →
      ∃ l1 i l2 y z, l = l1 ++ i :: l2 ∧ f i = y ++ x :: z ∧
        u = l1.flatMap f ++ y ∧ v = z ++ l2.flatMap f := by
  intro l
  induction l with
  | nil =>
    intro u v x heq
    simp at heq
  | cons j rest ih =>
    intro u v x heq
    rw [List.flatMap_cons] at heq
    rcases List.append_eq_append_iff.mp heq with ⟨w, hw1, hw2⟩ | ⟨w, hw1, hw2⟩
    · obtain ⟨l1, i, l2, y, z, hrest, hfi, hu2, hv2⟩ := ih hw2
      refine ⟨j :: l1, i, l2, y, z, by rw [hrest]; simp, hfi, ?_, hv2⟩
      rw [hw1, hu2, List.flatMap_cons, List.append_assoc]
    · cases w with
      | nil =>
        rw [List.append_nil] at hw1
        rw [List.nil_append] at hw2
        have hx : rest.flatMap f = [] ++ x :: v := by
          rw [List.nil_append]
          exact hw2.symm
        obtain ⟨l1, i, l2, y, z, hrest, hfi, hu2, hv2⟩ := ih hx
        have hnil := hu2.symm
        rw [List.append_eq_nil] at hnil
        refine ⟨j :: l1, i, l2, y, z, by rw [hrest]; simp, hfi, ?_, hv2⟩
        rw [List.flatMap_cons, hnil.1, hnil.2, List.append_nil, List.append_nil, hw1]
      | cons w0 w1 =>
        injection hw2 with hx hv2
        refine ⟨[], j, rest, u, w1, rfl, ?_, by simp, hv2⟩
        rw [hw1, hx]

theorem par_bucket_go_drain_before {t mt p0 : Int} :
    ∀ (l : List (EventListEntry π σ)) (n : Int) (u v : List (ReplayAction π σ))
      (t2 : Int) (e2 : EventListEntry π σ),
      par_bucket_go t mt p0 l n = u ++ ReplayAction.dispatchCall t2 e2 :: v →
      e2.phase ≠ p0 →
      ∃ a, u = a ++ [ReplayAction.drain] := by
  intro l
  induction l with
  | nil =>
    intro n u v t2 e2 heq _
    simp [par_bucket_go] at heq
  | cons e rest ih =>
    intro n u v t2 e2 heq hph
    by_cases hr : event_runnable e
    · by_cases hd : mt ≤ n ∨ e.phase ≠ p0
      · simp only [par_bucket_go, hr, hd, if_true, if_pos] at heq
        cases u with
        | nil =>
          rw [List.nil_append] at heq
          injection heq with h1 h2
          exact ReplayAction.noConfusion h1
        | cons u0 u2 =>
          rw [List.cons_append] at heq
          injection heq with h1 heq2
          cases u2 with
          | nil =>
            rw [List.nil_append] at heq2
            refine ⟨[], ?_⟩
            rw [← h1]
            rfl
          | cons u1 u3 =>
            rw [List.cons_append] at heq2
            injection heq2 with h2 heq3
            obtain ⟨a, ha⟩ := ih 1 u3 v t2 e2 heq3 hph
            exact ⟨u0 :: u1 :: a, by rw [ha]; simp⟩
      · have hdn : n < mt ∧ e.phase = p0 := by
          push_neg at hd
          exact hd
        simp only [par_bucket_go, hr, hd, if_true, if_neg, not_false_iff] at heq
        cases u with
        | nil =>
          rw [List.nil_append] at heq
          injection heq with h1 h2
          injection h1 with hteq heeq
          exact absurd (heeq ▸ hdn.2) hph
        | cons u0 u2 =>
          rw [List.cons_append] at heq
          injection heq with h1 heq2
          obtain ⟨a, ha⟩ := ih (n + 1) u2 v t2 e2 heq2 hph
          exact ⟨u0 :: a, by rw [ha]; simp⟩
    · simp only [par_bucket_go, hr, if_false, Bool.false_eq_true] at heq
      exact ih n u v t2 e2 heq hph

theorem par_bucket_trace_drain_before {t mt p0 : Int}
    {l : List (EventListEntry π σ)} {u v : List (ReplayAction π σ)}
    {t2 : Int} {e2 : EventListEntry π σ}
    (heq : par_bucket_go t mt p0 l 0 ++ [ReplayAction.drain] =
      u ++ ReplayAction.dispatchCall t2 e2 :: v)
    (hph : e2.phase ≠ p0) :
    ∃ a, u = a ++ [ReplayAction.drain] := by
  rcases List.append_eq_append_iff.mp heq with ⟨w, hw1, hw2⟩ | ⟨w, hw1, hw2⟩
  · exfalso
    cases w with
    | nil =>
      rw [List.nil_append] at hw2
      injection hw2 with h1 h2
      exact ReplayAction.noConfusion h1
    | cons w0 w1 =>
      rw [List.cons_append] at hw2
      injection hw2 with h1 h2
      simp at h2
  · cases w with
    | nil =>
      exfalso
      rw [List.nil_append] at hw2
      injection hw2 with h1 h2
      exact ReplayAction.noConfusion h1
    | cons w0 w1 =>
      rw [List.cons_append] at hw2
      injection hw2 with h1 h2
      rw [← h1] at hw1
      exact par_bucket_go_drain_before l 0 u w1 t2 e2 hw1 hph

theorem segment_dispatch_facts {h : RwnHistory π σ} {mt i : Int} {t0 : Int}
    {e0 : EventListEntry π σ}
    (ha : ReplayAction.dispatchCall t0 e0 ∈ state_delta_segment h mt i) :
    t0 = i ∧ ∃ b, hash_find_int h.timepoint_hash_map i = some b ∧ e0 ∈ b ∧
      event_runnable e0 = true := by
  cases hfind : hash_find_int h.timepoint_hash_map i with
  | none => simp [state_delta_segment, hfind] at ha
  | some bucket =>
    simp only [state_delta_segment, hfind] at ha
    by_cases hne : bucket.isEmpty
    · simp [hne] at ha
    · simp only [hne, if_false, Bool.false_eq_true] at ha
      rcases mem_bucket_trace ha with hdr | ⟨e, he, hinv, hr⟩
      · exact ReplayAction.noConfusion hdr
      · rcases hinv with heq | heq
        · exact ReplayAction.noConfusion heq
        · injection heq with h1 h2
          subst h1
          subst h2
          exact ⟨rfl, bucket, rfl, he, hr⟩

theorem segment_ends_drain {h : RwnHistory π σ} {mt : Int} (hmt : 0 < mt)
    (t : Int) :
    state_delta_segment h mt t = [] ∨
      ∃ g, state_delta_segment h mt t = g ++ [ReplayAction.drain] := by
  cases hfind : hash_find_int h.timepoint_hash_map t with
  | none => exact Or.inl (by simp [state_delta_segment, hfind])
  | some bucket =>
    by_cases hne : bucket.isEmpty
    · exact Or.inl (by simp [state_delta_segment, hfind, hne])
    · refine Or.inr ?_
      cases bucket with
      | nil => simp at hne
      | cons first rest =>
        refine ⟨par_bucket_go t mt first.phase (first :: rest) 0, ?_⟩
        simp [state_delta_segment, hfind, hne, state_delta_bucket_trace, hmt,
          par_bucket_trace]

theorem segment_barrier {h : RwnHistory π σ} (hInv : HistoryInv h) {mt : Int}
    (hmt : 0 < mt) (i : Int) :
    ∀ (y z : List (ReplayAction π σ)) (t1 : Int) (e1 : EventListEntry π σ)
      (t2 : Int) (e2 : EventListEntry π σ),
      state_delta_segment h mt i = y ++ ReplayAction.dispatchCall t2 e2 :: z →
      ReplayAction.dispatchCall t1 e1 ∈ y →
      e1.phase < e2.phase →
      ∃ a, y = a ++ [ReplayAction.drain] := by
  intro y z t1 e1 t2 e2 hseg hmem hph
  cases hfind : hash_find_int h.timepoint_hash_map i with
  | none =>
    rw [state_delta_segment] at hseg
    simp only [hfind] at hseg
    exact absurd hseg.symm (by simp)
  | some bucket =>
    rw [state_delta_segment] at hseg
    simp only [hfind] at hseg
    by_cases hne : bucket.isEmpty
    · rw [if_pos hne] at hseg
      exact absurd hseg.symm (by simp)
    · rw [if_neg hne] at hseg
      cases bucket with
      | nil => simp at hne
      | cons first rest =>
        rw [state_delta_bucket_trace, if_pos hmt, par_bucket_trace] at hseg
        have he1 : e1 ∈ first :: rest := by
          have hmemgo : ReplayAction.dispatchCall t1 e1 ∈
              par_bucket_go i mt first.phase (first :: rest) 0 := by
            have : ReplayAction.dispatchCall t1 e1 ∈
                par_bucket_go i mt first.phase (first :: rest) 0 ++
                  [ReplayAction.drain] := by
              rw [hseg]
              exact List.mem_append_left _ hmem
            rcases List.mem_append.mp this with hg | hd
            · exact hg
            · simp at hd
          rcases mem_par_bucket_go hmemgo with hdr | ⟨e, he, heq, _⟩
          · exact ReplayAction.noConfusion hdr
          · injection heq with h1 h2
            rw [h2]
            exact he
        have hp0 : first.phase ≤ e1.phase := by
          rcases List.mem_cons.mp he1 with rfl | h2
          · exact le_refl _
          · have hsorted := hInv.buckets_sorted (i, first :: rest)
              (mem_of_hash_find_int hfind)
            have := List.rel_of_pairwise_cons hsorted h2
            rcases this with hlt | ⟨heq2, _⟩
            · exact le_of_lt hlt
            · exact le_of_eq heq2
        have hph2 : e2.phase ≠ first.phase := by
          intro hcon
          rw [hcon] at hph
          omega
        exact par_bucket_trace_drain_before hseg hph2

theorem trace_barrier {h : RwnHistory π σ} (hInv : HistoryInv h) {mt : Int}
    (hmt : 0 < mt) (start finish : Int) :
    ∀ (u v : List (ReplayAction π σ)) (t1 : Int) (e1 : EventListEntry π σ)
      (t2 : Int) (e2 : EventListEntry π σ),
      state_delta_trace h start finish mt = u ++ ReplayAction.dispatchCall t2 e2 :: v →
      ReplayAction.dispatchCall t1 e1 ∈ u →
      (t1 < t2 ∨ (t1 = t2 ∧ e1.phase < e2.phase)) →
      ∃ a b, u = a ++ ReplayAction.drain :: b ∧
        ReplayAction.dispatchCall t1 e1 ∈ a := by
  intro u v t1 e1 t2 e2 heq hmem hord
  rw [state_delta_trace] at heq
  obtain ⟨l1, i, l2, y, z, htps, hfi, hu, hv⟩ := flatMap_eq_append_cons heq
  subst hu
  rcases List.mem_append.mp hmem with hm1 | hm2
  · obtain ⟨j, hj, haj⟩ := List.mem_flatMap.mp hm1
    rcases segment_ends_drain (h := h) hmt j with hsege | ⟨g, hsegg⟩
    · rw [hsege] at haj
      simp at haj
    · obtain ⟨la, lb, hl1⟩ := List.append_of_mem hj
      have hflat : l1.flatMap (state_delta_segment h mt) =
          la.flatMap (state_delta_segment h mt) ++ (g ++ [ReplayAction.drain]) ++
            lb.flatMap (state_delta_segment h mt) := by
        rw [hl1]
        simp [hsegg]
      have hag : ReplayAction.dispatchCall t1 e1 ∈ g := by
        rw [hsegg] at haj
        rcases List.mem_append.mp haj with hg | hdr
        · exact hg
        · simp at hdr
      refine ⟨la.flatMap (state_delta_segment h mt) ++ g,
        lb.flatMap (state_delta_segment h mt) ++ y, ?_, ?_⟩
      · rw [hflat]
        simp [List.append_assoc]
      · exact List.mem_append.mpr (Or.inr hag)
  · have ht2i : t2 = i := by
      have : ReplayAction.dispatchCall t2 e2 ∈ state_delta_segment h mt i := by
        rw [hfi]
        exact List.mem_append_right _ (List.mem_cons_self _ _)
      exact (segment_dispatch_facts this).1
    have ht1i : t1 = i := by
      have : ReplayAction.dispatchCall t1 e1 ∈ state_delta_segment h mt i := by
        rw [hfi]
        exact List.mem_append_left _ hm2
      exact (segment_dispatch_facts this).1
    have hph : e1.phase < e2.phase := by
      rcases hord with hlt | ⟨_, hp⟩
      · omega
      · exact hp
    obtain ⟨a, ha⟩ := segment_barrier hInv hmt i y z t1 e1 t2 e2 hfi hm2 hph
    have hmema : ReplayAction.dispatchCall t1 e1 ∈ a := by
      rw [ha] at hm2
      rcases List.mem_append.mp hm2 with hg | hdr
      · exact hg
      · simp at hdr
    refine ⟨l1.flatMap (state_delta_segment h mt) ++ a, [], ?_, ?_⟩
    · rw [ha]
      simp
    · exact List.mem_append_right _ hmema

theorem par_bucket_go_inflight {t mt p0 : Int} (hmt : 0 < mt) :
    ∀ (l : List (EventListEntry π σ)) (n : Int), n ≤ mt →
      ∀ (u v : List (ReplayAction π σ)),
        par_bucket_go t mt p0 l n = u ++ v →
        u.foldl inflight_step n ≤ mt := by
  intro l
  induction l with
  | nil =>
    intro n hn u v heq
    simp only [par_bucket_go] at heq
    have hu : u = [] := by
      have := heq.symm
      rw [List.append_eq_nil] at this
      exact this.1
    subst hu
    simpa using hn
  | cons e rest ih =>
    intro n hn u v heq
    by_cases hr : event_runnable e
    · by_cases hd : mt ≤ n ∨ e.phase ≠ p0
      · simp only [par_bucket_go, hr, hd, if_true, if_pos] at heq
        cases u with
        | nil => simpa using hn
        | cons u0 u2 =>
          rw [List.cons_append] at heq
          injection heq with h1 heq2
          cases u2 with
          | nil =>
            rw [← h1]
            simp [inflight_step]
            omega
          | cons u1 u3 =>
            rw [List.cons_append] at heq2
            injection heq2 with h2 heq3
            have := ih 1 (by omega) u3 v heq3
            rw [← h1, ← h2]
            simpa [inflight_step] using this
      · have hdn : n < mt ∧ e.phase = p0 := by
          push_neg at hd
          exact hd
        simp only [par_bucket_go, hr, hd, if_true, if_neg, not_false_iff] at heq
        cases u with
        | nil => simpa using hn
        | cons u0 u2 =>
          rw [List.cons_append] at heq
          injection heq with h1 heq2
          have := ih (n + 1) (by omega) u2 v heq2
          rw [← h1]
          simpa [inflight_step] using this
    · simp only [par_bucket_go, hr, if_false, Bool.false_eq_true] at heq
      exact ih n hn u v heq

theorem segment_prefix_inflight {h : RwnHistory π σ} {mt : Int} (hmt : 0 < mt)
    (t : Int) {u v : List (ReplayAction π σ)}
    (heq : state_delta_segment h mt t = u ++ v) :
    u.foldl inflight_step 0 ≤ mt := by
  cases hfind : hash_find_int h.timepoint_hash_map t with
  | none =>
    rw [state_delta_segment] at heq
    simp only [hfind] at heq
    have hu : u = [] := by
      have := heq.symm
      rw [List.append_eq_nil] at this
      exact this.1
    subst hu
    simpa using le_of_lt hmt
  | some bucket =>
    rw [state_delta_segment] at heq
    simp only [hfind] at heq
    by_cases hne : bucket.isEmpty
    · rw [if_pos hne] at heq
      have hu : u = [] := by
        have := heq.symm
        rw [List.append_eq_nil] at this
        exact this.1
      subst hu
      simpa using le_of_lt hmt
    · rw [if_neg hne] at heq
      cases bucket with
      | nil => simp at hne
      | cons first rest =>
        rw [state_delta_bucket_trace, if_pos hmt, par_bucket_trace] at heq
        rcases List.append_eq_append_iff.mp heq with ⟨w, hw1, hw2⟩ | ⟨w, hw1, hw2⟩
        · cases w with
          | nil =>
            rw [List.append_nil] at hw1
            exact par_bucket_go_inflight hmt (first :: rest) 0
              (le_of_lt hmt) u [] (by rw [hw1, List.append_nil])
          | cons w0 w1 =>
            rw [List.cons_append] at hw2
            injection hw2 with h1 h2
            have hw1nil : w1 = [] ∧ v = [] := by
              constructor
              · cases w1 with
                | nil => rfl
                | cons a b => simp at h2
              · rcases List.append_eq_nil.mp h2.symm with ⟨_, hv⟩
                exact hv
            rw [hw1, ← h1, hw1nil.1]
            rw [List.foldl_append]
            simp only [List.foldl_cons, List.foldl_nil, inflight_step]
            omega
        · exact par_bucket_go_inflight hmt (first :: rest) 0 (le_of_lt hmt) u w hw1

theorem segment_foldl_zero {h : RwnHistory π σ} {mt : Int} (hmt : 0 < mt)
    (t : Int) :
    (state_delta_segment h mt t).foldl inflight_step 0 = 0 := by
  rcases segment_ends_drain (h := h) hmt t with hsege | ⟨g, hsegg⟩
  · rw [hsege]
    rfl
  · rw [hsegg, List.foldl_append]
    rfl

theorem trace_inflight {h : RwnHistory π σ} {mt : Int} (hmt : 0 < mt)
    (start finish : Int) :
    ∀ (u v : List (ReplayAction π σ)),
      state_delta_trace h start finish mt = u ++ v →
      inflight_after u ≤ mt := by
  rw [state_delta_trace]
  generalize delta_timepoints start finish = tps
  induction tps with
  | nil =>
    intro u v heq
    simp only [List.flatMap_nil] at heq
    have hu : u = [] := by
      have := heq.symm
      rw [List.append_eq_nil] at this
      exact this.1
    subst hu
    simpa [inflight_after] using le_of_lt hmt
  | cons j rest ih =>
    intro u v heq
    rw [List.flatMap_cons] at heq
    rcases List.append_eq_append_iff.mp heq with ⟨w, hw1, hw2⟩ | ⟨w, hw1, hw2⟩
    · have := ih w v hw2
      rw [hw1, inflight_after, List.foldl_append,
        segment_foldl_zero hmt j]
      exact this
    · exact segment_prefix_inflight hmt j hw1

/-- C9: with a reachable history and max_threads > 0, the engine trace of
state_delta is a hard phase barrier: between the dispatch of any record and
the later dispatch of a record of a later timepoint, or of the same
timepoint and a strictly later phase, there is a join-all (every earlier
task completes before the later one starts); and the number of in-flight
threads after any prefix of the trace never exceeds max_threads. -/
theorem c9_phase_barrier_and_bound {h : RwnHistory π σ} (hr : Reachable h)
    {max_threads : Int} (hmt : 0 < max_threads)
    (start finish : Int) (st : Option σ) :
    (∀ (u v : List (ReplayAction π σ)) (t1 : Int) (e1 : EventListEntry π σ)
      (t2 : Int) (e2 : EventListEntry π σ),
      (rwn_history_state_delta h start finish st max_threads).2 =
        u ++ ReplayAction.dispatchCall t2 e2 :: v →
      ReplayAction.dispatchCall t1 e1 ∈ u →
      (t1 < t2 ∨ (t1 = t2 ∧ e1.phase < e2.phase)) →
      ∃ a b, u = a ++ ReplayAction.drain :: b ∧
        ReplayAction.dispatchCall t1 e1 ∈ a) ∧
    (∀ u v : List (ReplayAction π σ),
      (rwn_history_state_delta h start finish st max_threads).2 = u ++ v →
      inflight_after u ≤ max_threads) := by
  have hInv := reachable_inv hr
  by_cases h1 : start < 0 ∨ finish < 0
  · constructor
    · intro u v t1 e1 t2 e2 heq _ _
      simp [rwn_history_state_delta, h1] at heq
    · intro u v heq
      simp only [rwn_history_state_delta, h1, if_true, if_pos] at heq
      have hu : u = [] := by
        have := heq.symm
        rw [List.append_eq_nil] at this
        exact this.1
      subst hu
      simpa [inflight_after] using le_of_lt hmt
  · by_cases h2 : finish < start
    · constructor
      · intro u v t1 e1 t2 e2 heq _ _
        simp [rwn_history_state_delta, h1, h2] at heq
      · intro u v heq
        simp only [rwn_history_state_delta, h1, h2, if_true, if_pos, if_false,
          Bool.false_eq_true, not_false_iff, if_neg] at heq
        have hu : u = [] := by
          have := heq.symm
          rw [List.append_eq_nil] at this
          exact this.1
        subst hu
        simpa [inflight_after] using le_of_lt hmt
    · have hsnd : (rwn_history_state_delta h start finish st max_threads).2 =
          state_delta_trace h start finish max_threads := by
        simp [rwn_history_state_delta, h1, h2]
      rw [hsnd]
      exact ⟨trace_barrier hInv hmt start finish,
        trace_inflight hmt start finish⟩

theorem c9_phase_barrier_and_bound_witness :
    (0 : Int) < 2 ∧
    ((∀ (u v : List (ReplayAction Int Int)) (t1 : Int)
        (e1 : EventListEntry Int Int) (t2 : Int) (e2 : EventListEntry Int Int),
        (rwn_history_state_delta c1_history 0 0 (some 0) 2).2 =
          u ++ ReplayAction.dispatchCall t2 e2 :: v →
        ReplayAction.dispatchCall t1 e1 ∈ u →
        (t1 < t2 ∨ (t1 = t2 ∧ e1.phase < e2.phase)) →
        ∃ a b, u = a ++ ReplayAction.drain :: b ∧
          ReplayAction.dispatchCall t1 e1 ∈ a) ∧
      (∀ u v : List (ReplayAction Int Int),
        (rwn_history_state_delta c1_history 0 0 (some 0) 2).2 = u ++ v →
        inflight_after u ≤ 2)) :=
  ⟨by decide,
    c9_phase_barrier_and_bound
      (Reachable.schedule 0 0 (some 2) (some mult_apply) false
        (Reachable.schedule 0 1 (some 2) (some incr_apply) false
          (Reachable.schedule 0 0 (some 1) (some mult_apply) false
            (Reachable.schedule 0 1 (some 1) (some incr_apply) false
              Reachable.create))))
      (by decide) 0 0 (some 0)⟩

end Rewind
